import Mathlib

/-!
Verification of the `sales-script-graph` repository (a React single-page
viewer/editor for a branching sales script) against its natural-language
specification.

The repository ships several revisions of the same components concatenated in
each source file; the models below mirror each revision that the claims refer
to:

* `AppV2` — the main viewer (`src/src/App.tsx`, second revision): graph data
  with navigation history (`goTo` / `goBack` / `goHome`), pinned nodes with
  `localStorage` persistence, sidebar filtering and pin-first display order.
* `AppV1` — the first revision of `App.tsx`: option buttons that set the
  current id directly, and the edges memo that deduplicates by the string
  key `label + ">" + to`.
* `P4` — the revision in `src/unnamed/part_004`: the edges memo that
  deduplicates by first occurrence of the (label, to) pair via `findIndex`.
* `SidebarC` — the `Sidebar` component (`src/src/components/Sidebar.tsx`):
  its own search filter and the pinned/other partition of the node list.
* `Editor` — `src/src/components/GraphEditor.tsx`: `toReactFlow`,
  `fromReactFlow` and the breadth-first `layoutByLevels` pass.

JavaScript-specific behaviour is modelled explicitly: string truthiness
(`""` is falsy), `Map` get/set semantics (insertion order, replace in
place), `Set` iteration order (first occurrence), the ES2019 stability
contract of `Array.prototype.sort`, and `"…".split("\n")` /
`[…].join("\n")` on sequences of UTF-16 code units (`List Char`).
-/

/-! ## Generic JavaScript-model helpers -/

/-- JS `Map` modelled as an insertion-ordered association list. -/
abbrev AMap (K V : Type) := List (K × V)

/-- `Map.prototype.get`. -/
def mapGet {K V : Type} [DecidableEq K] (m : AMap K V) (k : K) : Option V :=
  match m with
  | [] => none
  | p :: m => if p.1 = k then some p.2 else mapGet m k

/-- `Map.prototype.has`. -/
def mapHas {K V : Type} [DecidableEq K] (m : AMap K V) (k : K) : Bool :=
  (mapGet m k).isSome

/-- `Map.prototype.set`: replaces the value in place when the key is present
(keeping its position in iteration order), appends otherwise. -/
def mapSet {K V : Type} [DecidableEq K] (m : AMap K V) (k : K) (v : V) : AMap K V :=
  match m with
  | [] => [(k, v)]
  | p :: m => if p.1 = k then (k, v) :: m else p :: mapSet m k v

theorem mapGet_nil {K V : Type} [DecidableEq K] (k : K) : mapGet ([] : AMap K V) k = none := rfl

theorem mapGet_cons {K V : Type} [DecidableEq K] (p : K × V) (m : AMap K V) (k : K) :
    mapGet (p :: m) k = if p.1 = k then some p.2 else mapGet m k := rfl

theorem mapSet_nil {K V : Type} [DecidableEq K] (k : K) (v : V) :
    mapSet ([] : AMap K V) k v = [(k, v)] := rfl

theorem mapSet_cons {K V : Type} [DecidableEq K] (p : K × V) (m : AMap K V) (k : K) (v : V) :
    mapSet (p :: m) k v = if p.1 = k then (k, v) :: m else p :: mapSet m k v := rfl

theorem mapGet_set {K V : Type} [DecidableEq K] (m : AMap K V) (k k' : K) (v : V) :
    mapGet (mapSet m k v) k' = if k' = k then some v else mapGet m k' := by
  induction m with
  | nil =>
    rw [mapSet_nil, mapGet_cons, mapGet_nil]
    by_cases h : k' = k
    · rw [if_pos h.symm, if_pos h]
    · rw [if_neg (fun hh : k = k' => h hh.symm), if_neg h]
  | cons p m ih =>
    rw [mapSet_cons]
    by_cases hp : p.1 = k
    · rw [if_pos hp, mapGet_cons]
      by_cases h : k' = k
      · rw [if_pos h.symm, if_pos h]
      · rw [if_neg (fun hh : k = k' => h hh.symm), if_neg h, mapGet_cons]
        rw [← hp] at h
        rw [if_neg (fun hh : p.1 = k' => h hh.symm)]
    · rw [if_neg hp, mapGet_cons, mapGet_cons]
      by_cases h : p.1 = k'
      · have hne : ¬ k' = k := fun he => hp (he ▸ h)
        rw [if_pos h, if_pos h, if_neg hne]
      · rw [if_neg h, if_neg h, ih]

theorem mapHas_set {K V : Type} [DecidableEq K] (m : AMap K V) (k k' : K) (v : V) :
    mapHas (mapSet m k v) k' = (k' = k || mapHas m k') := by
  by_cases h : k' = k <;> simp [mapHas, mapGet_set, h]

/-- JS string truthiness for an optional string: `undefined`, `null` and the
empty string are falsy. -/
def jstruthy : Option String → Bool
  | none => false
  | some s => s ≠ ""

/-- JS `a || b` on optional strings. -/
def jsor (a b : Option String) : Option String := if jstruthy a then a else b

/-- `String.prototype.toLowerCase` on the underlying code units. -/
def jsToLower (s : String) : String := ⟨s.data.map Char.toLower⟩

/-- Drop leading whitespace code units. -/
def dropLeadWs : List Char → List Char
  | [] => []
  | c :: cs => if c.isWhitespace then dropLeadWs cs else c :: cs

/-- `String.prototype.trim`: strip whitespace from both ends. -/
def jsTrim (s : String) : String :=
  ⟨((dropLeadWs ((dropLeadWs s.data).reverse)).reverse)⟩

/-- `needle.isPrefixOf hay` spelt out on code units. -/
def leadsWith : List Char → List Char → Bool
  | [], _ => true
  | _ :: _, [] => false
  | c :: cs, d :: ds => c = d && leadsWith cs ds

/-- `hay.includes(needle)` (substring test) on code units. -/
def jsIncludesL (hay needle : List Char) : Bool :=
  match hay with
  | [] => needle.isEmpty
  | _ :: t => leadsWith needle hay || jsIncludesL t needle

/-- `hay.includes(needle)` on strings. -/
def jsIncludes (hay needle : String) : Bool := jsIncludesL hay.data needle.data

theorem leadsWith_iff (needle hay : List Char) :
    leadsWith needle hay = true ↔ needle <+: hay := by
  induction needle generalizing hay with
  | nil => simp [leadsWith]
  | cons c cs ih =>
    cases hay with
    | nil => simp [leadsWith]
    | cons d ds =>
      simp only [leadsWith, Bool.and_eq_true, decide_eq_true_eq, List.cons_prefix_cons]
      exact and_congr Iff.rfl (ih ds)

theorem jsIncludesL_iff (hay needle : List Char) :
    jsIncludesL hay needle = true ↔ needle <:+: hay := by
  induction hay with
  | nil => simp [jsIncludesL, List.isEmpty_iff]
  | cons d ds ih =>
    simp only [jsIncludesL, Bool.or_eq_true, leadsWith_iff, ih]
    exact (List.infix_cons_iff).symm

/-- The stable sort contract of `Array.prototype.sort` (ES2019): realised as a
stable insertion sort; `lt x y` models `comparator(x, y) < 0`. -/
def jsIns {α : Type} (lt : α → α → Bool) (x : α) : List α → List α
  | [] => [x]
  | y :: ys => if lt x y then x :: y :: ys else y :: jsIns lt x ys

/-- JS `Array.prototype.sort` with comparator `lt` (stable). -/
def jsSort {α : Type} (lt : α → α → Bool) (l : List α) : List α :=
  l.foldl (fun acc x => jsIns lt x acc) []

theorem jsIns_perm {α : Type} (lt : α → α → Bool) (x : α) (l : List α) :
    (jsIns lt x l).Perm (x :: l) := by
  induction l with
  | nil => simp [jsIns]
  | cons y ys ih =>
    by_cases h : lt x y
    · simp [jsIns, h]
    · simp only [jsIns, if_neg h]
      exact (List.Perm.cons y ih).trans (List.Perm.swap x y ys)

theorem jsSort_foldl_perm {α : Type} (lt : α → α → Bool) (l acc : List α) :
    (l.foldl (fun acc x => jsIns lt x acc) acc).Perm (acc ++ l) := by
  induction l generalizing acc with
  | nil => simp
  | cons x xs ih =>
    simp only [List.foldl_cons]
    refine (ih (jsIns lt x acc)).trans ?_
    have h1 : (jsIns lt x acc ++ xs).Perm ((x :: acc) ++ xs) :=
      (jsIns_perm lt x acc).append_right xs
    refine h1.trans ?_
    simp only [List.cons_append]
    exact (List.perm_middle).symm

theorem jsSort_perm {α : Type} (lt : α → α → Bool) (l : List α) :
    (jsSort lt l).Perm l := by
  simpa using jsSort_foldl_perm lt l []

theorem jsIns_all_false {α : Type} (lt : α → α → Bool) (x : α) (l : List α)
    (h : ∀ y ∈ l, lt x y = false) : jsIns lt x l = l ++ [x] := by
  induction l with
  | nil => rfl
  | cons y ys ih =>
    have hy := h y (List.mem_cons_self y ys)
    simp only [jsIns, hy, Bool.false_eq_true, if_false, List.cons_append, List.cons.injEq,
      true_and]
    exact ih (fun z hz => h z (List.mem_cons_of_mem y hz))

theorem jsIns_split {α : Type} (P : α → Bool) (lt : α → α → Bool)
    (hlt : ∀ a b, lt a b = (P a && !P b)) (x : α) (A B : List α)
    (hA : ∀ a ∈ A, P a = true) (hB : ∀ b ∈ B, P b = false) :
    jsIns lt x (A ++ B) = if P x then A ++ x :: B else A ++ B ++ [x] := by
  by_cases hx : P x
  · rw [if_pos hx]
    induction A with
    | nil =>
      simp only [List.nil_append]
      cases B with
      | nil => rfl
      | cons b bs =>
        have hb : lt x b = true := by
          rw [hlt, hx, hB b (List.mem_cons_self b bs)]
          rfl
        simp [jsIns, hb]
    | cons a as ih =>
      have ha : lt x a = false := by
        rw [hlt, hA a (List.mem_cons_self a as)]
        simp
      simp only [List.cons_append, jsIns, ha, Bool.false_eq_true, if_false,
        List.cons.injEq, true_and]
      exact ih (fun z hz => hA z (List.mem_cons_of_mem a hz))
  · rw [if_neg hx]
    have hx' : P x = false := by simpa using hx
    refine jsIns_all_false lt x (A ++ B) ?_ |>.trans (by simp)
    intro y _
    rw [hlt, hx']
    rfl

theorem jsSort_foldl_split {α : Type} (P : α → Bool) (lt : α → α → Bool)
    (hlt : ∀ a b, lt a b = (P a && !P b)) (l A B : List α)
    (hA : ∀ a ∈ A, P a = true) (hB : ∀ b ∈ B, P b = false) :
    l.foldl (fun acc x => jsIns lt x acc) (A ++ B)
      = (A ++ l.filter P) ++ (B ++ l.filter (fun a => !P a)) := by
  induction l generalizing A B with
  | nil => simp
  | cons x xs ih =>
    simp only [List.foldl_cons]
    rw [jsIns_split P lt hlt x A B hA hB]
    by_cases hx : P x
    · rw [if_pos hx]
      have : A ++ x :: B = (A ++ [x]) ++ B := by simp
      rw [this, ih (A ++ [x]) B
        (fun a ha => by
          rcases List.mem_append.mp ha with h | h
          · exact hA a h
          · simp only [List.mem_singleton] at h
            subst h
            simpa using hx)
        hB]
      simp [List.filter_cons, hx]
    · rw [if_neg hx]
      have hx' : P x = false := by simpa using hx
      have : A ++ B ++ [x] = A ++ (B ++ [x]) := by simp
      rw [this, ih A (B ++ [x]) hA
        (fun b hb => by
          rcases List.mem_append.mp hb with h | h
          · exact hB b h
          · simp only [List.mem_singleton] at h
            subst h
            exact hx')]
      simp [List.filter_cons, hx']

/-- A JS stable sort whose comparator orders exactly the `P`-elements before
the non-`P`-elements is the stable partition. -/
theorem jsSort_split {α : Type} (P : α → Bool) (lt : α → α → Bool)
    (hlt : ∀ a b, lt a b = (P a && !P b)) (l : List α) :
    jsSort lt l = l.filter P ++ l.filter (fun a => !P a) := by
  have := jsSort_foldl_split P lt hlt l [] [] (by simp) (by simp)
  simpa [jsSort] using this

/-- JS `new Set(list)` followed by `Array.from`: first-occurrence
deduplication. -/
def jsSetOfList (l : List String) : List String :=
  l.foldl (fun acc x => if x ∈ acc then acc else acc ++ [x]) []

theorem mem_foldl_dedup (l acc : List String) (x : String) :
    (x ∈ l.foldl (fun acc y => if y ∈ acc then acc else acc ++ [y]) acc)
      ↔ x ∈ acc ∨ x ∈ l := by
  induction l generalizing acc with
  | nil => simp
  | cons y ys ih =>
    simp only [List.foldl_cons]
    by_cases hy : y ∈ acc
    · rw [if_pos hy, ih]
      constructor
      · rintro (h | h)
        · exact Or.inl h
        · exact Or.inr (List.mem_cons_of_mem y h)
      · rintro (h | h)
        · exact Or.inl h
        · rcases List.mem_cons.mp h with h | h
          · exact Or.inl (h ▸ hy)
          · exact Or.inr h
    · rw [if_neg hy, ih]
      simp only [List.mem_append, List.mem_singleton, List.mem_cons]
      tauto

theorem mem_jsSetOfList (l : List String) (x : String) :
    x ∈ jsSetOfList l ↔ x ∈ l := by
  unfold jsSetOfList
  rw [mem_foldl_dedup]
  simp

theorem nodup_foldl_dedup (l acc : List String) (hacc : acc.Nodup) :
    (l.foldl (fun acc y => if y ∈ acc then acc else acc ++ [y]) acc).Nodup := by
  induction l generalizing acc with
  | nil => exact hacc
  | cons y ys ih =>
    simp only [List.foldl_cons]
    by_cases hy : y ∈ acc
    · rw [if_pos hy]
      exact ih acc hacc
    · rw [if_neg hy]
      exact ih (acc ++ [y]) (by simp [List.nodup_append, hacc, hy])

theorem nodup_jsSetOfList (l : List String) : (jsSetOfList l).Nodup :=
  nodup_foldl_dedup l [] List.nodup_nil

/-! ## The main viewer (`src/src/App.tsx`, second revision) -/

namespace AppV2

/-- `type NodeType = "greeting" | "router" | "question" | "snippet"`. -/
inductive NodeType
  | greeting
  | router
  | question
  | snippet
deriving DecidableEq

/-- `interface Transition { label: string; to: string }`. -/
structure Transition where
  label : String
  «to» : String
deriving DecidableEq

/-- The entries of the historical `options` field. -/
structure NodeOption where
  label : String
  «to» : String
deriving DecidableEq

/-- `interface GraphNode` of the main viewer. -/
structure GraphNode where
  id : String
  title : String
  type : NodeType
  text : Option (List String) := none
  options : Option (List NodeOption) := none
  transitions : Option (List Transition) := none
deriving DecidableEq

/-- `interface Edge { from: string; to: string; label: string }`. -/
structure Edge where
  «from» : String
  «to» : String
  label : String
deriving DecidableEq

/-- `sticky_comment_position` values. -/
inductive PanelSide
  | left
  | right
deriving DecidableEq

/-- `interface GraphUI`. -/
structure GraphUI where
  sticky_comment_panel : Option Bool := none
  sticky_comment_title : Option String := none
  sticky_comment_position : Option PanelSide := none
deriving DecidableEq

/-- `interface GraphData { nodes; edges?; ui? }`. -/
structure GraphData where
  nodes : List GraphNode
  edges : Option (List Edge) := none
  ui : Option GraphUI := none
deriving DecidableEq

/-- The `nodeMap` memo: `graph?.nodes.forEach(n => m.set(n.id, n))`. -/
def nodeMap (g : GraphData) : AMap String GraphNode :=
  g.nodes.foldl (fun m n => mapSet m n.id n) []

/-- The navigation part of the component state: `currentId` and `history`. -/
structure NavState where
  currentId : Option String
  history : List String
deriving DecidableEq

/-- The start-node expression of the load effect and of `goHome`:
`loaded.nodes.find(n => n.type === "greeting")?.id || loaded.nodes[0]?.id`. -/
def startOf (g : GraphData) : Option String :=
  jsor ((g.nodes.find? (fun n => n.type = NodeType.greeting)).map (fun n => n.id))
       ((g.nodes.head?).map (fun n => n.id))

/-- The state installed by the load effect after a successful fetch:
`setCurrentId(start || null); setHistory(start ? [start] : [])`. -/
def loadNav (g : GraphData) : NavState :=
  ⟨if jstruthy (startOf g) then startOf g else none,
   if jstruthy (startOf g) then (startOf g).toList else []⟩

/-- `goTo`: `if (!nextId || !nodeMap.has(nextId)) return;` then set the current
id and append it to the history (the scroll side effect is not modelled). -/
def goTo (g : GraphData) (s : NavState) (nextId : String) : NavState :=
  if !jstruthy (some nextId) || !mapHas (nodeMap g) nextId then s
  else ⟨some nextId, s.history ++ [nextId]⟩

/-- `goBack`: on a history of length at most one return it unchanged (and do
not touch the current id); otherwise set the current id to `h[h.length - 2]`
and drop the last history entry (`h.slice(0, -1)`). -/
def goBack (s : NavState) : NavState :=
  if s.history.length ≤ 1 then s
  else ⟨s.history[s.history.length - 2]?, s.history.dropLast⟩

/-- `goHome`: recompute the start node; when it is truthy install it as the
current id with a fresh one-element history, otherwise do nothing. -/
def goHome (g : GraphData) (s : NavState) : NavState :=
  if jstruthy (startOf g) then ⟨startOf g, (startOf g).toList⟩ else s

/-- One candidate fetch of the load effect: either a decoded `GraphData` or a
failure (HTTP error or malformed JSON body). -/
abbrev LoadResult := Except String GraphData

/-- The candidate loop of the load effect: take the first candidate that
fetches and parses, remembering only that an error happened otherwise. -/
def firstOk : List LoadResult → Option GraphData
  | [] => none
  | Except.ok g :: _ => some g
  | Except.error _ :: rest => firstOk rest

/-- The component state touched by the load effect. -/
structure AppState where
  graph : Option GraphData
  nav : NavState
deriving DecidableEq

/-- The state before the load effect runs: no graph, no current id. -/
def initialState : AppState := ⟨none, ⟨none, []⟩⟩

/-- The load effect: install the first successfully decoded candidate and the
start state, or (`catch`) log the error to the console — the returned `Bool`
records whether `console.error` ran — leaving the state untouched. -/
def loadEffect (results : List LoadResult) (s : AppState) : AppState × Bool :=
  match firstOk results with
  | some g => (⟨some g, loadNav g⟩, false)
  | none => (s, true)

/-- The blocking render guard: `if (!graph || !current) return <Завантаження…>`
where `current = currentId ? nodeMap.get(currentId) : undefined`. -/
def rendersLoading (s : AppState) : Bool :=
  match s.graph with
  | none => true
  | some g =>
    match s.nav.currentId with
    | none => true
    | some cid => !mapHas (nodeMap g) cid

/-- The invariant relating history and current id. -/
def navInv (s : NavState) : Prop :=
  s.history ≠ [] ∧ s.history.getLast? = s.currentId

/-- The `filteredNodes` memo: empty query (after trim + lowercase) returns all
nodes, otherwise keep the nodes whose lowercased title, id, or one of whose
lowercased text lines contains the query. -/
def filteredNodes (graph : Option GraphData) (search : String) : List GraphNode :=
  match graph with
  | none => []
  | some g =>
    if jsToLower (jsTrim search) = "" then g.nodes
    else
      g.nodes.filter (fun n =>
        jsIncludes (jsToLower n.title) (jsToLower (jsTrim search))
          || jsIncludes (jsToLower n.id) (jsToLower (jsTrim search))
          || (n.text.getD []).any (fun t => jsIncludes (jsToLower t) (jsToLower (jsTrim search))))

/-- The rank used by the `displayNodes` comparator:
`ids.has(a.id) ? 0 : 1` with `ids = new Set(pinnedIds)`. -/
def pinRank (pinnedIds : List String) (n : GraphNode) : Nat :=
  if n.id ∈ pinnedIds then 0 else 1

/-- The `displayNodes` memo: a stable sort of the filtered nodes moving pinned
nodes first (`ap - bp` comparator, `0` on ties). -/
def displayNodes (graph : Option GraphData) (filtered : List GraphNode)
    (pinnedIds : List String) : List GraphNode :=
  match graph with
  | none => []
  | some _ => jsSort (fun a b => pinRank pinnedIds a < pinRank pinnedIds b) filtered

/-- `togglePinned`: build a `Set` from the current array, delete the id when
present and add it otherwise, and store `Array.from` of the result. -/
def togglePinned (prev : List String) (id : String) : List String :=
  if id ∈ jsSetOfList prev then (jsSetOfList prev).erase id
  else jsSetOfList prev ++ [id]

/-- The key the pinned set is persisted under (`const PIN_KEY = "sg_pins"`). -/
def PIN_KEY : String := "sg_pins"

/-- `localStorage` as seen through `JSON.parse`: each stored string either
parses as a string array or is unreadable. -/
abbrev PinStore := AMap String (Except Unit (List String))

/-- The persistence effect: `localStorage.setItem(PIN_KEY,
JSON.stringify(pinnedIds))` (stringify always yields a string that parses back
to the same array). -/
def savePins (st : PinStore) (pins : List String) : PinStore :=
  mapSet st PIN_KEY (Except.ok pins)

/-- The startup read: parse the stored value, defaulting to the empty set when
the key is missing or parsing throws. -/
def loadPins (st : PinStore) : List String :=
  match mapGet st PIN_KEY with
  | none => []
  | some (Except.error _) => []
  | some (Except.ok l) => l

end AppV2

/-! ## The first revision of `App.tsx` (`AppV1`) and `src/unnamed/part_004` (`P4`) -/

namespace AppV1

/-- `type NodeOption = { label: string; to?: string }`. -/
structure NodeOption where
  label : String
  «to» : Option String := none
deriving DecidableEq

/-- `type NodeT` (the `type` tag is a plain string in this revision). -/
structure NodeT where
  id : String
  title : String
  type : String
  text : Option (List String) := none
  options : Option (List NodeOption) := none
deriving DecidableEq

/-- `type EdgeT = { from: string; to: string; label: string }`. -/
structure EdgeT where
  «from» : String
  «to» : String
  label : String
deriving DecidableEq

/-- `type GraphT = { nodes: NodeT[]; edges: EdgeT[] }`. -/
structure GraphT where
  nodes : List NodeT
  edges : List EdgeT
deriving DecidableEq

/-- The option-button click handler of this revision:
`onClick={() => op.to && setCurrentId(op.to)}` — the target id is installed
unconditionally whenever `op.to` is truthy, with no membership check. -/
def optionClick (op : NodeOption) (currentId : Option String) : Option String :=
  match op.«to» with
  | none => currentId
  | some t => if t = "" then currentId else some t

/-- The deduplication key of the edges memo: `` `${e.label}>${e.to}` ``. -/
def edgeKey (e : EdgeT) : String := e.label ++ ">" ++ e.«to»

/-- The `edges` memo of this revision: return `[]` when there is no graph, no
truthy current id, or the node has options; otherwise filter the global edges
by source and deduplicate through a `Map` keyed by `` `${label}>${to}` ``. -/
def edgesMemo (graph : Option GraphT) (currentId : Option String)
    (nodeOptions : List NodeOption) : List EdgeT :=
  match graph, currentId with
  | some g, some cid =>
    if cid = "" || nodeOptions.length != 0 then []
    else
      let list := g.edges.filter (fun e => e.«from» = cid)
      (list.foldl (fun m e => mapSet m (edgeKey e) e) []).map (fun p => p.2)
  | _, _ => []

end AppV1

namespace P4

/-- The `edges` memo of `src/unnamed/part_004` (same `NodeT`/`EdgeT`/`GraphT`
shapes as `AppV1`): filter by source and keep each `(label, to)` pair's first
occurrence via `findIndex`. -/
def edgesMemo (graph : AppV1.GraphT) (currentId : String)
    (nodeOptions : List AppV1.NodeOption) : List AppV1.EdgeT :=
  if nodeOptions.length != 0 then []
  else
    let arr := graph.edges.filter (fun e => e.«from» = currentId)
    (arr.enum.filter (fun p =>
      arr.findIdx (fun x => x.label == p.2.label && x.«to» == p.2.«to») = p.1)).map
      (fun p => p.2)

end P4

/-- The claim's deduplication, written from the claim's words: remove
duplicates by the pair `(label, to)`, keeping the order of first occurrence. -/
def dedupByPair (l : List AppV1.EdgeT) : List AppV1.EdgeT :=
  l.foldl (fun acc e =>
    if acc.any (fun x => x.label == e.label && x.«to» == e.«to») then acc else acc ++ [e]) []

/-! ## The `Sidebar` component (`src/src/components/Sidebar.tsx`) -/

namespace SidebarC

/-- `type NodeType` of the Sidebar component. -/
inductive NodeType
  | greeting
  | router
  | question
  | snippet
deriving DecidableEq

/-- The union-string value carried by the `type` tag. -/
def typeStr : NodeType → String
  | NodeType.greeting => "greeting"
  | NodeType.router => "router"
  | NodeType.question => "question"
  | NodeType.snippet => "snippet"

/-- `export type SidebarNode = { id; title; type }` — no text lines. -/
structure SidebarNode where
  id : String
  title : String
  type : NodeType
deriving DecidableEq

/-- The Sidebar's own `filtered` memo: empty trimmed query returns the list
unchanged; otherwise keep nodes whose lowercased title, id, or **type tag**
contains the query. -/
def filtered (nodes : List SidebarNode) (q : String) : List SidebarNode :=
  if jsToLower (jsTrim q) = "" then nodes
  else
    nodes.filter (fun n =>
      jsIncludes (jsToLower n.title) (jsToLower (jsTrim q))
        || jsIncludes (jsToLower n.id) (jsToLower (jsTrim q))
        || jsIncludes (jsToLower (typeStr n.type)) (jsToLower (jsTrim q)))

/-- `pinnedNodes = filtered.filter(n => isPinned(n.id))`. -/
def pinnedNodes (filteredL : List SidebarNode) (pinned : List String) : List SidebarNode :=
  filteredL.filter (fun n => n.id ∈ pinned)

/-- `otherNodes = filtered.filter(n => !isPinned(n.id))`. -/
def otherNodes (filteredL : List SidebarNode) (pinned : List String) : List SidebarNode :=
  filteredL.filter (fun n => !(n.id ∈ pinned : Bool))

/-- The rendered order: the pinned section followed by the "all nodes"
section. -/
def sidebarDisplay (filteredL : List SidebarNode) (pinned : List String) : List SidebarNode :=
  pinnedNodes filteredL pinned ++ otherNodes filteredL pinned

end SidebarC

/-! ## The graph editor (`src/src/components/GraphEditor.tsx`) -/

namespace Editor

/-- `type NodeType` of the editor. -/
inductive NodeType
  | greeting
  | router
  | question
  | snippet
deriving DecidableEq

/-- `interface Transition { label: string; to: string }`. -/
structure Transition where
  label : String
  «to» : String
deriving DecidableEq

/-- `interface GraphNode` of the editor (no `options` field); text lines are
kept as sequences of UTF-16 code units so that `join("\n")` / `split("\n")`
can be modelled exactly. -/
structure GraphNode where
  id : String
  title : String
  type : NodeType
  text : Option (List (List Char)) := none
  transitions : Option (List Transition) := none
deriving DecidableEq

/-- `interface Edge { from: string; to: string; label: string }`. -/
structure Edge where
  «from» : String
  «to» : String
  label : String
deriving DecidableEq

/-- `sticky_comment_position` values. -/
inductive PanelSide
  | left
  | right
deriving DecidableEq

/-- `interface GraphUI`. -/
structure GraphUI where
  sticky_comment_panel : Option Bool := none
  sticky_comment_title : Option String := none
  sticky_comment_position : Option PanelSide := none
deriving DecidableEq

/-- `interface GraphData { nodes; edges?; ui? }`. -/
structure GraphData where
  nodes : List GraphNode
  edges : Option (List Edge) := none
  ui : Option GraphUI := none
deriving DecidableEq

/-- The `data` payload of a React Flow node as built by `toReactFlow`. -/
structure RFData where
  title : String
  type : NodeType
  text : List Char
deriving DecidableEq

/-- A React Flow node (id, position and data; styling is not modelled). -/
structure RFNode where
  id : String
  position : ℚ × ℚ
  data : RFData
deriving DecidableEq

/-- A React Flow edge (id, endpoints and label; styling is not modelled). -/
structure RFEdge where
  id : String
  source : String
  target : String
  label : Option String := none
deriving DecidableEq

/-- JS `Array.prototype.join("\n")`. -/
def joinNl : List (List Char) → List Char
  | [] => []
  | [x] => x
  | x :: xs => x ++ '\n' :: joinNl xs

/-- JS `String.prototype.split("\n")`. -/
def splitNl : List Char → List (List Char)
  | [] => [[]]
  | c :: cs =>
    if c = '\n' then [] :: splitNl cs
    else
      match splitNl cs with
      | [] => [[c]]
      | s :: ss => (c :: s) :: ss

/-- `GraphData -> ReactFlow`: nodes laid out on a 6-column default grid with
`data = { title, type, text: (text ?? []).join("\n") }`; the edge list is
`g.edges` when non-empty, else derived from per-node `transitions`; each edge
gets id `` `e-${i}-${from}-${to}` `` and label `e.label || "→"`. -/
def toReactFlow (g : GraphData) : List RFNode × List RFEdge :=
  let nodes := g.nodes.enum.map (fun p =>
    { id := p.2.id
      position := (((p.1 % 6 : ℕ) : ℚ) * 260, ((p.1 / 6 : ℕ) : ℚ) * 160)
      data := { title := p.2.title, type := p.2.type, text := joinNl (p.2.text.getD []) } })
  let fallback := g.nodes.flatMap (fun n =>
    (n.transitions.getD []).map (fun tr =>
      ({ «from» := n.id, «to» := tr.«to», label := tr.label } : Edge)))
  let edgeList :=
    match g.edges with
    | some es => if es.isEmpty then fallback else es
    | none => fallback
  let edges := edgeList.enum.map (fun p =>
    ({ id := "e-" ++ toString p.1 ++ "-" ++ p.2.«from» ++ "-" ++ p.2.«to»
       source := p.2.«from»
       target := p.2.«to»
       label := some (if p.2.label = "" then "→" else p.2.label) } : RFEdge))
  (nodes, edges)

/-- `ReactFlow -> GraphData`: rebuild nodes from `data` with
`text: String(data.text ?? "").split("\n").filter(Boolean)`, rebuild edges
from source/target with `label: String(e.label ?? "→")`, and carry over
`prev.ui`. -/
def fromReactFlow (nodes : List RFNode) (edges : List RFEdge) (prev : GraphData) : GraphData :=
  { nodes := nodes.map (fun n =>
      { id := n.id
        title := n.data.title
        type := n.data.type
        text := some ((splitNl n.data.text).filter (fun l => !l.isEmpty))
        transitions := none })
    edges := some (edges.map (fun e =>
      ({ «from» := e.source, «to» := e.target, label := e.label.getD "→" } : Edge)))
    ui := prev.ui }

theorem joinNl_cons₂ (x y : List Char) (ys : List (List Char)) :
    joinNl (x :: y :: ys) = x ++ '\n' :: joinNl (y :: ys) := rfl

theorem splitNl_cons (c : Char) (cs : List Char) :
    splitNl (c :: cs) =
      if c = '\n' then [] :: splitNl cs
      else
        match splitNl cs with
        | [] => [[c]]
        | s :: ss => (c :: s) :: ss := rfl

theorem splitNl_no_newline (l : List Char) (hl : '\n' ∉ l) : splitNl l = [l] := by
  induction l with
  | nil => rfl
  | cons c cs ih =>
    have hc : ¬ c = '\n' := fun h => hl (h ▸ List.mem_cons_self c cs)
    have hcs : '\n' ∉ cs := fun h => hl (List.mem_cons_of_mem c h)
    rw [splitNl_cons, if_neg hc, ih hcs]

theorem splitNl_append (l r : List Char) (hl : '\n' ∉ l) :
    splitNl (l ++ '\n' :: r) = l :: splitNl r := by
  induction l with
  | nil => simp [splitNl]
  | cons c cs ih =>
    have hc : ¬ c = '\n' := fun h => hl (h ▸ List.mem_cons_self c cs)
    have hcs : '\n' ∉ cs := fun h => hl (List.mem_cons_of_mem c h)
    rw [List.cons_append, splitNl_cons, if_neg hc, ih hcs]

theorem splitNl_joinNl (xs : List (List Char)) (h : ∀ l ∈ xs, '\n' ∉ l) (hne : xs ≠ []) :
    splitNl (joinNl xs) = xs := by
  induction xs with
  | nil => exact absurd rfl hne
  | cons x xs ih =>
    cases xs with
    | nil =>
      rw [joinNl]
      exact splitNl_no_newline x (h x (List.mem_cons_self x []))
    | cons y ys =>
      rw [joinNl_cons₂, splitNl_append x _ (h x (List.mem_cons_self x _))]
      rw [ih (fun l hl => h l (List.mem_cons_of_mem x hl)) (List.cons_ne_nil y ys)]

/-- The round trip on one node's text under the amended hypotheses. -/
theorem text_roundtrip (xs : List (List Char))
    (h : ∀ l ∈ xs, l ≠ [] ∧ '\n' ∉ l) :
    (splitNl (joinNl xs)).filter (fun l => !l.isEmpty) = xs := by
  cases hxs : xs with
  | nil => rfl
  | cons x rest =>
    rw [← hxs]
    rw [splitNl_joinNl xs (fun l hl => (h l hl).2) (by simp [hxs])]
    have : ∀ l ∈ xs, (fun l => !l.isEmpty) l = true := by
      intro l hl
      have := (h l hl).1
      simpa [List.isEmpty_iff] using this
    exact List.filter_eq_self.mpr this

end Editor

/-! ## Shared helper lemmas about the viewer's start state -/

/-- The start node written from the claim's words: the first node whose type
is `greeting`, or the first node of the document. -/
def specStart (g : AppV2.GraphData) : String :=
  match g.nodes.find? (fun n => n.type = AppV2.NodeType.greeting) with
  | some n => n.id
  | none =>
    match g.nodes with
    | [] => ""
    | n :: _ => n.id

theorem startOf_spec (g : AppV2.GraphData) (h1 : g.nodes ≠ [])
    (h2 : ∀ n ∈ g.nodes, n.id ≠ "") :
    AppV2.startOf g = some (specStart g) ∧ jstruthy (AppV2.startOf g) = true := by
  unfold AppV2.startOf specStart
  cases hfind : g.nodes.find? (fun n => n.type = AppV2.NodeType.greeting) with
  | some n =>
    have hn : n ∈ g.nodes := List.mem_of_find?_eq_some hfind
    have hid : n.id ≠ "" := h2 n hn
    simp only [Option.map_some]
    rw [jsor, if_pos (by simp [jstruthy, hid])]
    exact ⟨rfl, by simp [jstruthy, hid]⟩
  | none =>
    cases hg : g.nodes with
    | nil => exact absurd hg h1
    | cons n rest =>
      have hid : n.id ≠ "" := h2 n (hg ▸ List.mem_cons_self n rest)
      simp only [Option.map_none, hg, List.head?_cons]
      rw [jsor, if_neg (by simp [jstruthy])]
      exact ⟨rfl, by simp [jstruthy, hid]⟩

theorem loadNav_spec (g : AppV2.GraphData) (h1 : g.nodes ≠ [])
    (h2 : ∀ n ∈ g.nodes, n.id ≠ "") :
    AppV2.loadNav g = ⟨some (specStart g), [specStart g]⟩ := by
  obtain ⟨hs, ht⟩ := startOf_spec g h1 h2
  unfold AppV2.loadNav
  rw [hs] at ht ⊢
  rw [if_pos ht, if_pos ht]
  rfl

/-! ## Claim C1 -/

/-- C1 (counterexample): in the first `App.tsx` revision the option buttons run
`op.to && setCurrentId(op.to)` with no membership check, so activating an
option whose target `"ghost"` resolves to no node of the graph *changes* the
displayed current node id — it does not leave it unchanged as the claim
states. -/
theorem C1_counterexample :
    (AppV1.GraphT.mk
        [⟨"n1", "Start", "router", none, some [⟨"Go", some "ghost"⟩]⟩] []).nodes.find?
        (fun n => n.id = "ghost") = none
      ∧ AppV1.optionClick ⟨"Go", some "ghost"⟩ (some "n1") = some "ghost"
      ∧ (some "ghost" : Option String) ≠ some "n1" := by
  refine ⟨by decide, by decide, by decide⟩

/-- C1 (amended): navigation that goes through the main viewer's `goTo`
(the sidebar buttons and the transition buttons) silently ignores a target id
that is empty or does not resolve in the node map: the current id and the
history are left unchanged. The legacy revision's option buttons instead
install the unresolved id directly (see the counterexample). -/
theorem C1_goTo_unresolved_noop (g : AppV2.GraphData) (s : AppV2.NavState) (nextId : String)
    (h : nextId = "" ∨ mapHas (AppV2.nodeMap g) nextId = false) :
    AppV2.goTo g s nextId = s
      ∧ (AppV2.goTo g s nextId).currentId = s.currentId
      ∧ (AppV2.goTo g s nextId).history = s.history := by
  have hguard : AppV2.goTo g s nextId = s := by
    unfold AppV2.goTo
    rcases h with h | h
    · rw [if_pos (by simp [jstruthy, h])]
    · rw [if_pos (by simp [h])]
  exact ⟨hguard, by rw [hguard], by rw [hguard]⟩

/-- C1 (witness): a concrete unresolved-target activation that `goTo`
ignores. -/
theorem C1_witness :
    AppV2.goTo ⟨[⟨"n1", "Start", AppV2.NodeType.router, none, none, none⟩], none, none⟩
        ⟨some "n1", ["n1"]⟩ "ghost" = ⟨some "n1", ["n1"]⟩ :=
  (C1_goTo_unresolved_noop _ _ _ (Or.inr (by decide))).1

/-! ## Claim C3 -/

/-- C3 (counterexample): when the first greeting node has the empty string as
its id, the load effect's `…?.id || nodes[0]?.id` treats it as falsy and
installs the *first node* ("a") instead of the greeting node, so the claim's
"first node whose type is greeting" is not what the code starts on. -/
theorem C3_counterexample :
    ((AppV2.GraphData.mk
          [⟨"a", "A", AppV2.NodeType.snippet, none, none, none⟩,
           ⟨"", "Greet", AppV2.NodeType.greeting, none, none, none⟩] none none).nodes.find?
          (fun n => n.type = AppV2.NodeType.greeting)).map (fun n => n.id) = some ""
      ∧ AppV2.loadNav
          (AppV2.GraphData.mk
            [⟨"a", "A", AppV2.NodeType.snippet, none, none, none⟩,
             ⟨"", "Greet", AppV2.NodeType.greeting, none, none, none⟩] none none)
          = ⟨some "a", ["a"]⟩
      ∧ (some "a" : Option String) ≠ some "" := by
  refine ⟨by decide, by decide, by decide⟩

/-- C3 (amended): for a document with at least one node and non-empty node
ids, the initial current node is the first greeting node, else the first node,
the history is exactly that one-element list, and `goHome` re-establishes the
same state. -/
theorem C3_initial_state (g : AppV2.GraphData) (h1 : g.nodes ≠ [])
    (h2 : ∀ n ∈ g.nodes, n.id ≠ "") :
    AppV2.loadNav g = ⟨some (specStart g), [specStart g]⟩
      ∧ ∀ s, AppV2.goHome g s = ⟨some (specStart g), [specStart g]⟩ := by
  obtain ⟨hs, ht⟩ := startOf_spec g h1 h2
  refine ⟨loadNav_spec g h1 h2, fun s => ?_⟩
  unfold AppV2.goHome
  rw [hs] at ht ⊢
  rw [if_pos ht]
  rfl

/-- C3 (witness): the greeting node is selected on a concrete two-node
document, and `goHome` returns to it. -/
theorem C3_witness :
    AppV2.loadNav
        (AppV2.GraphData.mk
          [⟨"s1", "A", AppV2.NodeType.snippet, none, none, none⟩,
           ⟨"g1", "Greet", AppV2.NodeType.greeting, none, none, none⟩] none none)
        = ⟨some "g1", ["g1"]⟩
      ∧ AppV2.goHome
          (AppV2.GraphData.mk
            [⟨"s1", "A", AppV2.NodeType.snippet, none, none, none⟩,
             ⟨"g1", "Greet", AppV2.NodeType.greeting, none, none, none⟩] none none)
          ⟨some "s1", ["s1", "g1", "s1"]⟩ = ⟨some "g1", ["g1"]⟩ := by
  have h := C3_initial_state
    (AppV2.GraphData.mk
      [⟨"s1", "A", AppV2.NodeType.snippet, none, none, none⟩,
       ⟨"g1", "Greet", AppV2.NodeType.greeting, none, none, none⟩] none none)
    (by decide) (by decide)
  have hspec : specStart
      (AppV2.GraphData.mk
        [⟨"s1", "A", AppV2.NodeType.snippet, none, none, none⟩,
         ⟨"g1", "Greet", AppV2.NodeType.greeting, none, none, none⟩] none none) = "g1" := by
    decide
  exact ⟨by rw [h.1, hspec], by rw [h.2 _, hspec]⟩

/-! ## Claim C4 -/

theorem firstOk_eq_none (results : List AppV2.LoadResult)
    (h : ∀ r ∈ results, r.isOk = false) : AppV2.firstOk results = none := by
  induction results with
  | nil => rfl
  | cons r rest ih =>
    cases r with
    | ok g =>
      have hh := h _ (List.mem_cons_self _ _)
      simp [Except.isOk, Except.toBool] at hh
    | error e =>
      rw [AppV2.firstOk]
      exact ih (fun r hr => h r (List.mem_cons_of_mem _ hr))

/-- C4 (confirmed): when every fetch candidate fails or decodes to malformed
JSON, the load effect logs the error (the `Bool` component), leaves the state
untouched — in particular the graph stays `none`, so no partial document is
installed — and the component keeps rendering the blocking loading state. -/
theorem C4_load_failure (results : List AppV2.LoadResult)
    (h : ∀ r ∈ results, r.isOk = false) :
    AppV2.loadEffect results AppV2.initialState = (AppV2.initialState, true)
      ∧ (AppV2.loadEffect results AppV2.initialState).1.graph = none
      ∧ AppV2.rendersLoading (AppV2.loadEffect results AppV2.initialState).1 = true := by
  have hfo := firstOk_eq_none results h
  unfold AppV2.loadEffect
  rw [hfo]
  exact ⟨rfl, rfl, rfl⟩

/-- C4 (witness): both candidates fail (an HTTP error and a JSON parse
error). -/
theorem C4_witness :
    AppV2.loadEffect [Except.error "HTTP 404", Except.error "SyntaxError"]
        AppV2.initialState = (AppV2.initialState, true)
      ∧ AppV2.rendersLoading
          (AppV2.loadEffect [Except.error "HTTP 404", Except.error "SyntaxError"]
            AppV2.initialState).1 = true := by
  have h := C4_load_failure [Except.error "HTTP 404", Except.error "SyntaxError"]
    (by decide)
  exact ⟨h.1, h.2.2⟩

/-! ## Claim C7 -/

theorem mem_togglePinned (prev : List String) (id x : String) :
    x ∈ AppV2.togglePinned prev id
      ↔ (if id ∈ prev then x ∈ prev ∧ x ≠ id else (x ∈ prev ∨ x = id)) := by
  unfold AppV2.togglePinned
  by_cases hid : id ∈ prev
  · have hid' : id ∈ jsSetOfList prev := (mem_jsSetOfList prev id).mpr hid
    rw [if_pos hid', if_pos hid, (nodup_jsSetOfList prev).mem_erase_iff,
      mem_jsSetOfList]
    exact and_comm
  · have hid' : id ∉ jsSetOfList prev := fun hc => hid ((mem_jsSetOfList prev id).mp hc)
    rw [if_neg hid', if_neg hid]
    simp [mem_jsSetOfList]

/-- C7 (confirmed): toggling a pin adds an absent id and removes a present
one, toggling twice restores the pinned set (as a set of ids), every change is
persisted whole under the pin key, and startup restores the set from that key,
defaulting to empty when the key is missing or unreadable. -/
theorem C7_toggle_pins (prev : List String) (id x : String) (st : AppV2.PinStore)
    (pins : List String) :
    (x ∈ AppV2.togglePinned prev id
        ↔ (if id ∈ prev then x ∈ prev ∧ x ≠ id else (x ∈ prev ∨ x = id)))
      ∧ (x ∈ AppV2.togglePinned (AppV2.togglePinned prev id) id ↔ x ∈ prev)
      ∧ mapGet (AppV2.savePins st pins) AppV2.PIN_KEY = some (Except.ok pins)
      ∧ AppV2.loadPins (AppV2.savePins st pins) = pins
      ∧ AppV2.loadPins ([] : AppV2.PinStore) = []
      ∧ AppV2.loadPins (mapSet st AppV2.PIN_KEY (Except.error ())) = [] := by
  refine ⟨mem_togglePinned prev id x, ?_, ?_, ?_, rfl, ?_⟩
  · by_cases hid : id ∈ prev
    · have ht1 : id ∉ AppV2.togglePinned prev id := by
        rw [mem_togglePinned, if_pos hid]
        simp
      rw [mem_togglePinned, if_neg ht1, mem_togglePinned, if_pos hid]
      constructor
      · rintro (⟨hx, _⟩ | hx)
        · exact hx
        · exact hx ▸ hid
      · intro hx
        by_cases hxe : x = id
        · exact Or.inr hxe
        · exact Or.inl ⟨hx, hxe⟩
    · have ht1 : id ∈ AppV2.togglePinned prev id := by
        rw [mem_togglePinned, if_neg hid]
        exact Or.inr rfl
      rw [mem_togglePinned, if_pos ht1, mem_togglePinned, if_neg hid]
      constructor
      · rintro ⟨hx | hx, hne⟩
        · exact hx
        · exact absurd hx hne
      · intro hx
        exact ⟨Or.inl hx, fun he => hid (he ▸ hx)⟩
  · simp [AppV2.savePins, mapGet_set]
  · simp [AppV2.loadPins, AppV2.savePins, mapGet_set]
  · simp [AppV2.loadPins, mapGet_set]

/-! ## Claim C8 -/

/-- C8 (confirmed): once a graph with nodes (and non-empty ids) is loaded, the
history is non-empty with its last element equal to the current id, every
navigation operation (`goTo`, `goBack`, `goHome`) preserves that invariant,
and `goBack` on a history of length at most one changes nothing. -/
theorem C8_nav_invariant (g : AppV2.GraphData) (s : AppV2.NavState) (nextId : String) :
    (g.nodes ≠ [] → (∀ n ∈ g.nodes, n.id ≠ "") → AppV2.navInv (AppV2.loadNav g))
      ∧ (AppV2.navInv s → AppV2.navInv (AppV2.goTo g s nextId))
      ∧ (AppV2.navInv s → AppV2.navInv (AppV2.goBack s))
      ∧ (AppV2.navInv s → AppV2.navInv (AppV2.goHome g s))
      ∧ (s.history.length ≤ 1 → AppV2.goBack s = s) := by
  refine ⟨?_, ?_, ?_, ?_, ?_⟩
  · intro h1 h2
    rw [loadNav_spec g h1 h2]
    exact ⟨by simp, by simp⟩
  · intro hs
    unfold AppV2.goTo
    by_cases hguard : (!jstruthy (some nextId) || !mapHas (AppV2.nodeMap g) nextId) = true
    · rw [if_pos hguard]
      exact hs
    · rw [if_neg hguard]
      exact ⟨by simp, by simp [List.getLast?_concat]⟩
  · intro hs
    unfold AppV2.goBack
    by_cases hlen : s.history.length ≤ 1
    · rw [if_pos hlen]
      exact hs
    · rw [if_neg hlen]
      push_neg at hlen
      have h2 : 2 ≤ s.history.length := hlen
      refine ⟨?_, ?_⟩
      · show s.history.dropLast ≠ []
        intro hc
        have hdl : s.history.dropLast.length = s.history.length - 1 := List.length_dropLast _
        rw [hc] at hdl
        simp at hdl
        omega
      · show s.history.dropLast.getLast? = s.history[s.history.length - 2]?
        rw [List.getLast?_eq_getElem?, List.getElem?_dropLast, List.length_dropLast]
        rw [if_pos (by omega)]
        have he : s.history.length - 1 - 1 = s.history.length - 2 := by omega
        rw [he]
  · intro hs
    unfold AppV2.goHome
    by_cases ht : jstruthy (AppV2.startOf g) = true
    · rw [if_pos ht]
      cases hso : AppV2.startOf g with
      | none => rw [hso] at ht; simp [jstruthy] at ht
      | some a => exact ⟨by simp, by simp⟩
    · rw [if_neg ht]
      exact hs
  · intro hlen
    unfold AppV2.goBack
    rw [if_pos hlen]

/-- C8 (witness): the invariant holds on a concrete loaded graph and is
preserved by a concrete `goTo`, `goBack` and `goHome`; `goBack` on a
one-element history is the identity. -/
theorem C8_witness :
    AppV2.navInv (AppV2.loadNav
        (AppV2.GraphData.mk [⟨"a", "A", AppV2.NodeType.greeting, none, none, none⟩] none none))
      ∧ AppV2.navInv (AppV2.goTo
          (AppV2.GraphData.mk [⟨"a", "A", AppV2.NodeType.greeting, none, none, none⟩] none none)
          ⟨some "a", ["a"]⟩ "a")
      ∧ AppV2.navInv (AppV2.goBack ⟨some "a", ["a"]⟩)
      ∧ AppV2.navInv (AppV2.goHome
          (AppV2.GraphData.mk [⟨"a", "A", AppV2.NodeType.greeting, none, none, none⟩] none none)
          ⟨some "a", ["a"]⟩)
      ∧ AppV2.goBack ⟨some "a", ["a"]⟩ = ⟨some "a", ["a"]⟩ := by
  have hinv : AppV2.navInv ⟨some "a", ["a"]⟩ := ⟨by simp, by simp⟩
  have h := C8_nav_invariant
    (AppV2.GraphData.mk [⟨"a", "A", AppV2.NodeType.greeting, none, none, none⟩] none none)
    ⟨some "a", ["a"]⟩ "a"
  exact ⟨h.1 (by decide) (by decide), h.2.1 hinv, h.2.2.1 hinv, h.2.2.2.1 hinv,
    h.2.2.2.2 (by decide)⟩

/-! ## Claim C10 -/

/-- C10 (confirmed): the displayed sidebar list is the stable pinned-first
partition of the filtered list — a permutation in which every pinned node
precedes every unpinned one and the relative order inside each group is the
filtered order; the `Sidebar` component renders the same partition as
`pinnedNodes ++ otherNodes`. -/
theorem C10_sidebar_order (g : AppV2.GraphData) (filteredL : List AppV2.GraphNode)
    (pins : List String) (ns : List SidebarC.SidebarNode) :
    AppV2.displayNodes (some g) filteredL pins
        = filteredL.filter (fun n => decide (n.id ∈ pins))
          ++ filteredL.filter (fun n => !(decide (n.id ∈ pins)))
      ∧ (AppV2.displayNodes (some g) filteredL pins).Perm filteredL
      ∧ SidebarC.sidebarDisplay ns pins
          = ns.filter (fun n => decide (n.id ∈ pins))
            ++ ns.filter (fun n => !(decide (n.id ∈ pins))) := by
  have hsplit : AppV2.displayNodes (some g) filteredL pins
      = filteredL.filter (fun n => decide (n.id ∈ pins))
        ++ filteredL.filter (fun n => !(decide (n.id ∈ pins))) := by
    show jsSort _ filteredL = _
    refine jsSort_split (fun n => decide (n.id ∈ pins)) _ ?_ filteredL
    intro a b
    unfold AppV2.pinRank
    by_cases ha : a.id ∈ pins <;> by_cases hb : b.id ∈ pins <;> simp [ha, hb]
  refine ⟨hsplit, ?_, rfl⟩
  rw [hsplit]
  exact List.filter_append_perm _ filteredL

/-! ## Claim C6 -/

theorem jsIncludes_eq_decide (hay needle : String) :
    jsIncludes hay needle = decide (needle.data <:+: hay.data) := by
  by_cases h : needle.data <:+: hay.data
  · rw [decide_eq_true h]
    exact (jsIncludesL_iff hay.data needle.data).mpr h
  · rw [decide_eq_false h]
    rw [Bool.eq_false_iff]
    intro hc
    exact h ((jsIncludesL_iff hay.data needle.data).mp hc)

theorem jsToLower_eq_empty (s : String) : jsToLower s = "" ↔ s = "" := by
  constructor
  · intro h
    have hd : s.data.map Char.toLower = [] := congrArg String.data h
    rcases List.map_eq_nil_iff.mp hd with h2
    cases s
    simp at h2
    simp [h2]
  · intro h
    rw [h]
    rfl

/-- The claim's per-node search predicate, written from the claim's words: the
lowercased trimmed query is a substring of the lowercased title, of the
lowercased identifier, or of one of the lowercased text lines. -/
def specMatches (q : String) (n : AppV2.GraphNode) : Prop :=
  (jsToLower (jsTrim q)).data <:+: (jsToLower n.title).data
    ∨ (jsToLower (jsTrim q)).data <:+: (jsToLower n.id).data
    ∨ ∃ t ∈ n.text.getD [], (jsToLower (jsTrim q)).data <:+: (jsToLower t).data

instance specMatchesDecidable (q : String) (n : AppV2.GraphNode) :
    Decidable (specMatches q n) := by
  unfold specMatches
  infer_instance

/-- The claim's sidebar filter, written from the claim's words applied to the
Sidebar component's node shape (which carries no text lines): match on the
lowercased title or identifier. -/
def claimSidebarFilter (nodes : List SidebarC.SidebarNode) (q : String) :
    List SidebarC.SidebarNode :=
  if jsToLower (jsTrim q) = "" then nodes
  else
    nodes.filter (fun n =>
      jsIncludes (jsToLower n.title) (jsToLower (jsTrim q))
        || jsIncludes (jsToLower n.id) (jsToLower (jsTrim q)))

/-- C6 (counterexample): the Sidebar component's own filter matches the
lowercased *type tag* instead of text lines: searching "router" returns a node
whose title and id do not contain the query, which the claim's predicate
excludes. -/
theorem C6_counterexample :
    SidebarC.filtered [⟨"a", "b", SidebarC.NodeType.router⟩] "router"
        = [⟨"a", "b", SidebarC.NodeType.router⟩]
      ∧ claimSidebarFilter [⟨"a", "b", SidebarC.NodeType.router⟩] "router" = [] := by
  refine ⟨by decide, by decide⟩

/-- C6 (amended): the App-level filter (`filteredNodes`) behaves exactly as the
claim states — whole list on a whitespace-only query, else the nodes whose
lowercased title, id, or one of whose lowercased text lines contains the
lowercased trimmed query, in original order; the Sidebar component's own
filter instead matches the lowercased type tag in place of the text lines. -/
theorem C6_sidebar_filter (g : AppV2.GraphData) (q : String)
    (ns : List SidebarC.SidebarNode) :
    (jsTrim q = "" → AppV2.filteredNodes (some g) q = g.nodes)
      ∧ (jsTrim q ≠ "" →
          AppV2.filteredNodes (some g) q
            = g.nodes.filter (fun n => decide (specMatches q n)))
      ∧ (jsTrim q ≠ "" →
          SidebarC.filtered ns q
            = ns.filter (fun n =>
                jsIncludes (jsToLower n.title) (jsToLower (jsTrim q))
                  || jsIncludes (jsToLower n.id) (jsToLower (jsTrim q))
                  || jsIncludes (jsToLower (SidebarC.typeStr n.type))
                      (jsToLower (jsTrim q)))) := by
  refine ⟨?_, ?_, ?_⟩
  · intro h
    show (if jsToLower (jsTrim q) = "" then g.nodes else _) = g.nodes
    rw [if_pos ((jsToLower_eq_empty _).mpr h)]
  · intro h
    have hne : ¬ jsToLower (jsTrim q) = "" := fun hc => h ((jsToLower_eq_empty _).mp hc)
    show (if jsToLower (jsTrim q) = "" then g.nodes else _) = _
    rw [if_neg hne]
    refine List.filter_congr ?_
    intro n _
    rw [jsIncludes_eq_decide, jsIncludes_eq_decide]
    rw [Bool.eq_iff_iff]
    simp only [Bool.or_eq_true, decide_eq_true_eq, List.any_eq_true, specMatches]
    constructor
    · rintro ((h1 | h2) | ⟨t, ht, h3⟩)
      · exact Or.inl h1
      · exact Or.inr (Or.inl h2)
      · exact Or.inr (Or.inr ⟨t, ht, ((jsIncludesL_iff _ _).mp h3)⟩)
    · rintro (h1 | h2 | ⟨t, ht, h3⟩)
      · exact Or.inl (Or.inl h1)
      · exact Or.inl (Or.inr h2)
      · exact Or.inr ⟨t, ht, ((jsIncludesL_iff _ _).mpr h3)⟩
  · intro h
    have hne : ¬ jsToLower (jsTrim q) = "" := fun hc => h ((jsToLower_eq_empty _).mp hc)
    show (if jsToLower (jsTrim q) = "" then ns else _) = _
    rw [if_neg hne]

/-- C6 (witness): a whitespace-only query keeps the whole list; a non-empty
query filters by the claim's predicate. -/
theorem C6_witness :
    AppV2.filteredNodes
        (some (AppV2.GraphData.mk
          [⟨"n1", "Hello", AppV2.NodeType.snippet, some ["line one"], none, none⟩] none none))
        "   " = [⟨"n1", "Hello", AppV2.NodeType.snippet, some ["line one"], none, none⟩]
      ∧ AppV2.filteredNodes
          (some (AppV2.GraphData.mk
            [⟨"n1", "Hello", AppV2.NodeType.snippet, some ["line one"], none, none⟩] none none))
          "hello"
          = ([⟨"n1", "Hello", AppV2.NodeType.snippet, some ["line one"], none, none⟩]
              : List AppV2.GraphNode).filter (fun n => decide (specMatches "hello" n)) := by
  refine ⟨(C6_sidebar_filter _ "   " []).1 (by decide),
    (C6_sidebar_filter _ "hello" []).2.1 (by decide)⟩

/-! ## Claim C9 -/

theorem mapGet_keyed {α K : Type} [DecidableEq K] (f : α → K) (l : List α) (k : K) :
    mapGet (l.map (fun a => (f a, a))) k = l.find? (fun a => f a = k) := by
  induction l with
  | nil => rfl
  | cons a l ih =>
    rw [List.map_cons, mapGet_cons, List.find?_cons]
    by_cases h : f a = k
    · simp [h]
    · simp only [h, if_false, decide_eq_true_eq]
      rw [ih]
      simp [h]

theorem mapSet_id {K V : Type} [DecidableEq K] (m : AMap K V) (k : K) (v : V)
    (hk : mapHas m k = true) (huniq : ∀ p ∈ m, p.1 = k → p.2 = v) :
    mapSet m k v = m := by
  induction m with
  | nil => simp [mapHas, mapGet] at hk
  | cons p m ih =>
    rw [mapSet_cons]
    by_cases hp : p.1 = k
    · rw [if_pos hp]
      have hv : p.2 = v := huniq p (List.mem_cons_self _ _) hp
      rw [← hp, ← hv]
    · rw [if_neg hp]
      rw [mapHas, mapGet_cons, if_neg hp, ← mapHas] at hk
      rw [ih hk (fun q hq hqk => huniq q (List.mem_cons_of_mem _ hq) hqk)]

theorem mapSet_append_of_none {K V : Type} [DecidableEq K] (m : AMap K V) (k : K) (v : V)
    (h : mapGet m k = none) : mapSet m k v = m ++ [(k, v)] := by
  induction m with
  | nil => rfl
  | cons p m ih =>
    rw [mapGet_cons] at h
    by_cases hp : p.1 = k
    · rw [if_pos hp] at h
      exact absurd h (by simp)
    · rw [if_neg hp] at h
      rw [mapSet_cons, if_neg hp, ih h, List.cons_append]

theorem dedup_any (l acc : List AppV1.EdgeT) (y : AppV1.EdgeT) :
    ((l.foldl (fun a e =>
        if a.any (fun x => x.label == e.label && x.«to» == e.«to») then a else a ++ [e]) acc).any
          (fun x => x.label == y.label && x.«to» == y.«to»))
      = (acc.any (fun x => x.label == y.label && x.«to» == y.«to»)
          || l.any (fun x => x.label == y.label && x.«to» == y.«to»)) := by
  induction l generalizing acc with
  | nil => simp
  | cons e l' ih =>
    simp only [List.foldl_cons, List.any_cons]
    by_cases he : acc.any (fun x => x.label == e.label && x.«to» == e.«to») = true
    · rw [if_pos he, ih]
      by_cases hey : (e.label == y.label && e.«to» == y.«to») = true
      · have hacc : acc.any (fun x => x.label == y.label && x.«to» == y.«to») = true := by
          rcases List.any_eq_true.mp he with ⟨x, hx, hrel⟩
          refine List.any_eq_true.mpr ⟨x, hx, ?_⟩
          simp only [Bool.and_eq_true, beq_iff_eq] at hrel hey ⊢
          exact ⟨hrel.1.trans hey.1, hrel.2.trans hey.2⟩
        rw [hacc, hey]
        simp
      · have hey' : (e.label == y.label && e.«to» == y.«to») = false := by simpa using hey
        rw [hey']
        simp
    · rw [if_neg he, ih]
      rw [List.any_append]
      simp [Bool.or_assoc]

theorem keptIdx_eq_dedup (arr : List AppV1.EdgeT) :
    ((arr.enum.filter (fun p =>
        arr.findIdx (fun x => x.label == p.2.label && x.«to» == p.2.«to») = p.1)).map
          (fun p => p.2))
      = dedupByPair arr := by
  induction arr using List.reverseRecOn with
  | nil => rfl
  | append_singleton l e ih =>
    rw [List.enum_append]
    have henum : List.enumFrom l.length [e] = [(l.length, e)] := rfl
    rw [henum, List.filter_append, List.map_append]
    have hfilter : (l.enum.filter (fun p =>
          (l ++ [e]).findIdx (fun x => x.label == p.2.label && x.«to» == p.2.«to») = p.1))
        = (l.enum.filter (fun p =>
            l.findIdx (fun x => x.label == p.2.label && x.«to» == p.2.«to») = p.1)) := by
      refine List.filter_congr ?_
      intro p hp
      have hlt := List.fst_lt_of_mem_enum hp
      rw [List.findIdx_append]
      by_cases hf : l.findIdx (fun x => x.label == p.2.label && x.«to» == p.2.«to») < l.length
      · rw [if_pos hf]
      · rw [if_neg hf]
        push_neg at hf
        exact decide_eq_decide.mpr (by constructor <;> (intro h; omega))
    rw [hfilter]
    have hdedup : dedupByPair (l ++ [e])
        = (if (dedupByPair l).any (fun x => x.label == e.label && x.«to» == e.«to»)
            then dedupByPair l else dedupByPair l ++ [e]) := by
      unfold dedupByPair
      rw [List.foldl_append]
      rfl
    rw [hdedup]
    have hany : ((dedupByPair l).any (fun x => x.label == e.label && x.«to» == e.«to»))
        = (l.any (fun x => x.label == e.label && x.«to» == e.«to»)) := by
      unfold dedupByPair
      rw [dedup_any]
      simp
    by_cases hex : l.findIdx (fun x => x.label == e.label && x.«to» == e.«to») < l.length
    · have hl : l.any (fun x => x.label == e.label && x.«to» == e.«to») = true := by
        rcases List.findIdx_lt_length.mp hex with ⟨x, hx, hrel⟩
        exact List.any_eq_true.mpr ⟨x, hx, hrel⟩
      rw [if_pos (by rw [hany, hl])]
      have hcond : ((l ++ [e]).findIdx (fun x => x.label == e.label && x.«to» == e.«to»)
          = l.length) ↔ False := by
        rw [List.findIdx_append, if_pos hex]
        constructor
        · intro h
          omega
        · intro h
          exact h.elim
      rw [List.filter_cons]
      rw [if_neg (by simp [hcond])]
      simp [ih]
    · have hl : l.any (fun x => x.label == e.label && x.«to» == e.«to») = false := by
        rw [← Bool.not_eq_true]
        intro hc
        rcases List.any_eq_true.mp hc with ⟨x, hx, hrel⟩
        exact absurd (List.findIdx_lt_length.mpr ⟨x, hx, hrel⟩) hex
      rw [if_neg (by rw [hany, hl]; simp)]
      have hcond : ((l ++ [e]).findIdx (fun x => x.label == e.label && x.«to» == e.«to»)
          = l.length) := by
        rw [List.findIdx_append, if_neg hex]
        simp [List.findIdx_cons]
      rw [List.filter_cons]
      rw [if_pos (by simp [hcond])]
      simp [ih]

theorem foldl_mapSet_dedup (l acc : List AppV1.EdgeT)
    (hinj : ∀ e1 ∈ acc ++ l, ∀ e2 ∈ acc ++ l, AppV1.edgeKey e1 = AppV1.edgeKey e2 → e1 = e2) :
    l.foldl (fun m e => mapSet m (AppV1.edgeKey e) e)
        (acc.map (fun a => (AppV1.edgeKey a, a)))
      = ((l.foldl (fun a e =>
            if a.any (fun x => x.label == e.label && x.«to» == e.«to») then a else a ++ [e])
          acc).map (fun a => (AppV1.edgeKey a, a))) := by
  induction l generalizing acc with
  | nil => rfl
  | cons e l' ih =>
    simp only [List.foldl_cons]
    have he_mem : e ∈ acc ++ e :: l' := List.mem_append_right _ (List.mem_cons_self _ _)
    by_cases hacc : acc.any (fun x => x.label == e.label && x.«to» == e.«to») = true
    · rw [if_pos hacc]
      rcases List.any_eq_true.mp hacc with ⟨x, hx, hrel⟩
      simp only [Bool.and_eq_true, beq_iff_eq] at hrel
      have hset : mapSet (acc.map (fun a => (AppV1.edgeKey a, a))) (AppV1.edgeKey e) e
          = acc.map (fun a => (AppV1.edgeKey a, a)) := by
        apply mapSet_id
        · rw [mapHas, mapGet_keyed]
          have hfound : acc.find? (fun a => AppV1.edgeKey a = AppV1.edgeKey e) ≠ none := by
            intro hc
            have := List.find?_eq_none.mp hc x hx
            simp only [decide_eq_true_eq] at this
            exact this (by unfold AppV1.edgeKey; rw [hrel.1, hrel.2])
          cases hfind : acc.find? (fun a => AppV1.edgeKey a = AppV1.edgeKey e) with
          | none => exact absurd hfind hfound
          | some a => simp
        · intro p hp hpk
          rcases List.mem_map.mp hp with ⟨a, ha, hpa⟩
          have hka : AppV1.edgeKey a = AppV1.edgeKey e := by
            rw [← hpa] at hpk
            exact hpk
          have : a = e :=
            hinj a (List.mem_append_left _ ha) e he_mem hka
          rw [← hpa, this]
      rw [hset]
      exact ih acc (fun e1 h1 e2 h2 hk =>
        hinj e1 (by
          rcases List.mem_append.mp h1 with h | h
          · exact List.mem_append_left _ h
          · exact List.mem_append_right _ (List.mem_cons_of_mem _ h))
          e2 (by
            rcases List.mem_append.mp h2 with h | h
            · exact List.mem_append_left _ h
            · exact List.mem_append_right _ (List.mem_cons_of_mem _ h)) hk)
    · rw [if_neg hacc]
      have habs : mapGet (acc.map (fun a => (AppV1.edgeKey a, a))) (AppV1.edgeKey e) = none := by
        rw [mapGet_keyed]
        refine List.find?_eq_none.mpr ?_
        intro a ha
        simp only [decide_eq_true_eq]
        intro hka
        have hae : a = e := hinj a (List.mem_append_left _ ha) e he_mem hka
        apply hacc
        refine List.any_eq_true.mpr ⟨a, ha, ?_⟩
        rw [hae]
        simp
      rw [mapSet_append_of_none _ _ _ habs]
      have hmap : (acc.map (fun a => (AppV1.edgeKey a, a))) ++ [(AppV1.edgeKey e, e)]
          = (acc ++ [e]).map (fun a => (AppV1.edgeKey a, a)) := by simp
      rw [hmap]
      refine ih (acc ++ [e]) ?_
      intro e1 h1 e2 h2 hk
      refine hinj e1 ?_ e2 ?_ hk
      · rcases List.mem_append.mp h1 with h | h
        · rcases List.mem_append.mp h with h' | h'
          · exact List.mem_append_left _ h'
          · simp only [List.mem_singleton] at h'
            exact h' ▸ he_mem
        · exact List.mem_append_right _ (List.mem_cons_of_mem _ h)
      · rcases List.mem_append.mp h2 with h | h
        · rcases List.mem_append.mp h with h' | h'
          · exact List.mem_append_left _ h'
          · simp only [List.mem_singleton] at h'
            exact h' ▸ he_mem
        · exact List.mem_append_right _ (List.mem_cons_of_mem _ h)

/-- C9 (counterexample): the first revision's edges memo deduplicates by the
string key `label + ">" + to`, so two *different* `(label, to)` pairs whose
keys collide — `("a>b", "c")` and `("a", "b>c")` both key to `"a>b>c"` — are
merged into one button (keeping the last edge), while the claim's
pair-deduplication keeps both. -/
theorem C9_counterexample :
    AppV1.edgesMemo
        (some (AppV1.GraphT.mk [] [⟨"n", "c", "a>b"⟩, ⟨"n", "b>c", "a"⟩])) (some "n") []
      = [⟨"n", "b>c", "a"⟩]
      ∧ dedupByPair
          (([⟨"n", "c", "a>b"⟩, ⟨"n", "b>c", "a"⟩] : List AppV1.EdgeT).filter
            (fun e => e.«from» = "n"))
        = [⟨"n", "c", "a>b"⟩, ⟨"n", "b>c", "a"⟩] := by
  refine ⟨by decide, by decide⟩

/-- C9 (amended): the edge-derived transition list is shown only when the
current node's options list is empty (both revisions return `[]` otherwise);
the `part_004` revision yields exactly the source-filtered edges with
duplicates removed by the `(label, to)` pair in first-occurrence order; the
first `App.tsx` revision yields the same list provided the string keys
`label + ">" + to` are injective on the filtered edges (for example when no
label contains `">"`) — otherwise distinct pairs are merged (see the
counterexample). -/
theorem C9_edge_dedup (g : AppV1.GraphT) (cid : String) (opts : List AppV1.NodeOption)
    (hcid : cid ≠ "")
    (hinj : ∀ e1 ∈ g.edges.filter (fun e => e.«from» = cid),
        ∀ e2 ∈ g.edges.filter (fun e => e.«from» = cid),
        AppV1.edgeKey e1 = AppV1.edgeKey e2 → e1 = e2) :
    (opts ≠ [] →
        AppV1.edgesMemo (some g) (some cid) opts = [] ∧ P4.edgesMemo g cid opts = [])
      ∧ P4.edgesMemo g cid [] = dedupByPair (g.edges.filter (fun e => e.«from» = cid))
      ∧ AppV1.edgesMemo (some g) (some cid) []
          = dedupByPair (g.edges.filter (fun e => e.«from» = cid)) := by
  refine ⟨?_, ?_, ?_⟩
  · intro hopts
    have hlen : (opts.length != 0) = true := by
      simp only [bne_iff_ne, ne_eq]
      intro hc
      exact hopts (List.length_eq_zero.mp hc)
    constructor
    · show (if cid = "" || opts.length != 0 then _ else _) = _
      rw [if_pos (by rw [hlen]; simp)]
    · show (if opts.length != 0 then _ else _) = _
      rw [if_pos hlen]
  · show (if (List.length [] != 0) then _ else _) = _
    rw [if_neg (by simp)]
    exact keptIdx_eq_dedup _
  · show (if cid = "" || (List.length ([] : List AppV1.NodeOption) != 0) then _ else _) = _
    rw [if_neg (by simp [hcid])]
    have h := foldl_mapSet_dedup (g.edges.filter (fun e => e.«from» = cid)) [] (by simpa using hinj)
    simp only [List.map_nil] at h
    rw [h, List.map_map]
    have hcomp : ((fun p => p.2) ∘ fun a => (AppV1.edgeKey a, a))
        = (id : AppV1.EdgeT → AppV1.EdgeT) := rfl
    rw [hcomp, List.map_id]
    rfl

/-- C9 (witness): on concrete edges with a true duplicate both memo revisions
produce the pair-deduplicated list. -/
theorem C9_witness :
    AppV1.edgesMemo
        (some (AppV1.GraphT.mk []
          [⟨"n", "x", "go"⟩, ⟨"n", "x", "go"⟩, ⟨"n", "y", "go"⟩, ⟨"m", "z", "other"⟩]))
        (some "n") []
      = [⟨"n", "x", "go"⟩, ⟨"n", "y", "go"⟩]
      ∧ P4.edgesMemo
          (AppV1.GraphT.mk []
            [⟨"n", "x", "go"⟩, ⟨"n", "x", "go"⟩, ⟨"n", "y", "go"⟩, ⟨"m", "z", "other"⟩])
          "n" []
        = [⟨"n", "x", "go"⟩, ⟨"n", "y", "go"⟩] := by
  have h := C9_edge_dedup
    (AppV1.GraphT.mk []
      [⟨"n", "x", "go"⟩, ⟨"n", "x", "go"⟩, ⟨"n", "y", "go"⟩, ⟨"m", "z", "other"⟩])
    "n" [] (by decide) (by decide)
  refine ⟨?_, ?_⟩
  · rw [h.2.2]
    decide
  · rw [h.2.1]
    decide

/-! ## Claim C2 -/

/-- C2 (counterexample): a text line containing an embedded newline breaks the
export round trip even though no line is the empty string — `join("\n")`
followed by `split("\n")` cuts `"hi\nyo"` into two lines. -/
theorem C2_counterexample :
    (∀ l ∈ ["hi\nyo".data], l ≠ [])
      ∧ ((Editor.fromReactFlow
            (Editor.toReactFlow
              (Editor.GraphData.mk
                [⟨"n1", "T", Editor.NodeType.snippet, some ["hi\nyo".data], none⟩]
                (some [⟨"n1", "n1", "L"⟩]) none)).1
            (Editor.toReactFlow
              (Editor.GraphData.mk
                [⟨"n1", "T", Editor.NodeType.snippet, some ["hi\nyo".data], none⟩]
                (some [⟨"n1", "n1", "L"⟩]) none)).2
            (Editor.GraphData.mk
              [⟨"n1", "T", Editor.NodeType.snippet, some ["hi\nyo".data], none⟩]
              (some [⟨"n1", "n1", "L"⟩]) none)).nodes.map (fun n => n.text))
          = [some ["hi".data, "yo".data]]
      ∧ ([some ["hi".data, "yo".data]] : List (Option (List (List Char))))
          ≠ [some ["hi\nyo".data]] := by
  refine ⟨by decide, by decide, by decide⟩

/-- C2 (amended): `fromReactFlow (toReactFlow g) g` keeps every node's id,
title and type in order; it returns each node's text unchanged whenever the
text is present with no empty line *and no line containing a newline
character*; it returns `g.edges` unchanged whenever `g.edges` is non-empty
with non-empty labels; and it carries over `g.ui`. -/
theorem C2_roundtrip (g : Editor.GraphData)
    (htext : ∀ n ∈ g.nodes, ∃ ls, n.text = some ls ∧ ∀ l ∈ ls, l ≠ [] ∧ '\n' ∉ l)
    (hedges : ∃ es, g.edges = some es ∧ es ≠ [] ∧ ∀ e ∈ es, e.label ≠ "") :
    ((Editor.fromReactFlow (Editor.toReactFlow g).1 (Editor.toReactFlow g).2 g).nodes.map
          (fun n => (n.id, n.title, n.type))
        = g.nodes.map (fun n => (n.id, n.title, n.type)))
      ∧ ((Editor.fromReactFlow (Editor.toReactFlow g).1 (Editor.toReactFlow g).2 g).nodes.map
            (fun n => n.text)
          = g.nodes.map (fun n => n.text))
      ∧ (Editor.fromReactFlow (Editor.toReactFlow g).1 (Editor.toReactFlow g).2 g).edges
          = g.edges
      ∧ (Editor.fromReactFlow (Editor.toReactFlow g).1 (Editor.toReactFlow g).2 g).ui
          = g.ui := by
  obtain ⟨es, hes, hesne, heslab⟩ := hedges
  refine ⟨?_, ?_, ?_, rfl⟩
  · show ((g.nodes.enum.map _).map _).map _ = _
    rw [List.map_map, List.map_map]
    have : g.nodes.map (fun n => (n.id, n.title, n.type))
        = (g.nodes.enum.map Prod.snd).map (fun n => (n.id, n.title, n.type)) := by
      rw [List.enum_map_snd]
    rw [this, List.map_map]
    rfl
  · show ((g.nodes.enum.map _).map _).map _ = _
    rw [List.map_map, List.map_map]
    have hrhs : g.nodes.map (fun n => n.text)
        = (g.nodes.enum.map Prod.snd).map (fun n => n.text) := by
      rw [List.enum_map_snd]
    rw [hrhs, List.map_map]
    refine List.map_congr_left ?_
    intro p hp
    have hmem : p.2 ∈ g.nodes := List.snd_mem_of_mem_enum hp
    obtain ⟨ls, hls, hlines⟩ := htext p.2 hmem
    show some ((Editor.splitNl (Editor.joinNl (p.2.text.getD []))).filter
        (fun l => !l.isEmpty)) = p.2.text
    rw [hls]
    simp only [Option.getD_some]
    rw [Editor.text_roundtrip ls hlines]
  · simp only [Editor.fromReactFlow, Editor.toReactFlow, hes]
    rw [if_neg (by simpa [List.isEmpty_iff] using hesne)]
    congr 1
    rw [List.map_map]
    have hrhs : es = (es.enum.map Prod.snd).map (fun e => e) := by
      rw [List.enum_map_snd]
      simp
    conv_rhs => rw [hrhs]
    rw [List.map_map]
    refine List.map_congr_left ?_
    intro p hp
    have hmem : p.2 ∈ es := List.snd_mem_of_mem_enum hp
    have hlab : p.2.label ≠ "" := heslab p.2 hmem
    show (⟨p.2.«from», p.2.«to»,
        (some (if p.2.label = "" then "→" else p.2.label)).getD "→"⟩ : Editor.Edge) = p.2
    rw [Option.getD_some, if_neg hlab]

/-- C2 (witness): the round trip is the identity on a concrete well-formed
document. -/
theorem C2_witness :
    ((Editor.fromReactFlow
          (Editor.toReactFlow
            (Editor.GraphData.mk
              [⟨"n1", "T", Editor.NodeType.snippet, some ["ok".data], none⟩]
              (some [⟨"n1", "n1", "L"⟩]) none)).1
          (Editor.toReactFlow
            (Editor.GraphData.mk
              [⟨"n1", "T", Editor.NodeType.snippet, some ["ok".data], none⟩]
              (some [⟨"n1", "n1", "L"⟩]) none)).2
          (Editor.GraphData.mk
            [⟨"n1", "T", Editor.NodeType.snippet, some ["ok".data], none⟩]
            (some [⟨"n1", "n1", "L"⟩]) none)).nodes.map (fun n => n.text)
        = [some ["ok".data]])
      ∧ (Editor.fromReactFlow
          (Editor.toReactFlow
            (Editor.GraphData.mk
              [⟨"n1", "T", Editor.NodeType.snippet, some ["ok".data], none⟩]
              (some [⟨"n1", "n1", "L"⟩]) none)).1
          (Editor.toReactFlow
            (Editor.GraphData.mk
              [⟨"n1", "T", Editor.NodeType.snippet, some ["ok".data], none⟩]
              (some [⟨"n1", "n1", "L"⟩]) none)).2
          (Editor.GraphData.mk
            [⟨"n1", "T", Editor.NodeType.snippet, some ["ok".data], none⟩]
            (some [⟨"n1", "n1", "L"⟩]) none)).edges
        = some [⟨"n1", "n1", "L"⟩] := by
  have h := C2_roundtrip
    (Editor.GraphData.mk
      [⟨"n1", "T", Editor.NodeType.snippet, some ["ok".data], none⟩]
      (some [⟨"n1", "n1", "L"⟩]) none)
    (by
      intro n hn
      simp only [List.mem_singleton] at hn
      subst hn
      exact ⟨["ok".data], rfl, by decide⟩)
    ⟨[⟨"n1", "n1", "L"⟩], rfl, by decide, by decide⟩
  refine ⟨?_, ?_⟩
  · rw [h.2.1]
    rfl
  · rw [h.2.2.1]

/-! ## `layoutByLevels` (`src/src/components/GraphEditor.tsx`, lines 65–119) -/

namespace Editor

/-- The options record of `layoutByLevels`. -/
structure LayoutOpts where
  xGap : Option ℚ := none
  yGap : Option ℚ := none
  startId : Option String := none

/-- The adjacency map: `out.set(n.id, [])` for every node, then
`out.get(String(e.source))!.push(String(e.target))` for every edge — the
non-null assertion throws (`none`) when an edge's source is not a node id. -/
def buildOut (nodes : List RFNode) (edges : List RFEdge) :
    Option (AMap String (List String)) :=
  let base := nodes.foldl (fun m n => mapSet m n.id []) []
  edges.foldlM (fun m e =>
    match mapGet m e.source with
    | none => none
    | some l => some (mapSet m e.source (l ++ [e.target]))) base

/-- The in-degree map: `inDeg.set(n.id, 0)` for every node, then
`inDeg.set(target, (inDeg.get(target) ?? 0) + 1)` for every edge. -/
def buildInDeg (nodes : List RFNode) (edges : List RFEdge) : AMap String Nat :=
  let base := nodes.foldl (fun m n => mapSet m n.id 0) []
  edges.foldl (fun m e => mapSet m e.target ((mapGet m e.target).getD 0 + 1)) base

/-- Root selection: a truthy `opts.startId` wins, else the first greeting
node's id when truthy, else all nodes of in-degree zero; when that set is
empty fall back to `[nodes[0].id]` (which throws — `none` — on an empty node
list). -/
def rootsOf (nodes : List RFNode) (edges : List RFEdge) (opts : LayoutOpts) :
    Option (List String) :=
  let inDeg := buildInDeg nodes edges
  let greeting := (nodes.find? (fun n => n.data.type = NodeType.greeting)).map (fun n => n.id)
  let r :=
    if jstruthy opts.startId then opts.startId.toList
    else if jstruthy greeting then greeting.toList
    else (nodes.filter (fun n => (mapGet inDeg n.id).getD 0 = 0)).map (fun n => n.id)
  if r.isEmpty then
    match nodes with
    | [] => none
    | n :: _ => some [n.id]
  else some r

/-- The inner `for (const w of out.get(v) ?? [])` loop of the BFS: discover
each yet-unlevelled neighbour at `(level.get(v) ?? 0) + 1` and collect it for
the queue. -/
def visitNbrs (lv : AMap String Nat) (v : String) :
    List String → AMap String Nat × List String
  | [] => (lv, [])
  | w :: ws =>
    if mapHas lv w then visitNbrs lv v ws
    else
      let lv2 := mapSet lv w ((mapGet lv v).getD 0 + 1)
      let r := visitNbrs lv2 v ws
      (r.1, w :: r.2)

theorem visitNbrs_cons (lv : AMap String Nat) (v w : String) (ws : List String) :
    visitNbrs lv v (w :: ws) =
      if mapHas lv w then visitNbrs lv v ws
      else
        ((visitNbrs (mapSet lv w ((mapGet lv v).getD 0 + 1)) v ws).1,
         w :: (visitNbrs (mapSet lv w ((mapGet lv v).getD 0 + 1)) v ws).2) := rfl

theorem visitNbrs_newly_mem (lv : AMap String Nat) (v : String) (ws : List String) :
    ∀ w ∈ (visitNbrs lv v ws).2, mapHas lv w = false ∧ w ∈ ws := by
  induction ws generalizing lv with
  | nil => simp [visitNbrs]
  | cons w ws ih =>
    rw [visitNbrs_cons]
    by_cases hw : mapHas lv w
    · rw [if_pos hw]
      intro x hx
      rcases ih lv x hx with ⟨h1, h2⟩
      exact ⟨h1, List.mem_cons_of_mem _ h2⟩
    · rw [if_neg hw]
      intro x hx
      rcases List.mem_cons.mp hx with h | h
      · subst h
        exact ⟨by simpa using hw, List.mem_cons_self _ _⟩
      · rcases ih _ x h with ⟨h1, h2⟩
        rw [mapHas_set] at h1
        simp only [Bool.or_eq_false_iff] at h1
        exact ⟨h1.2, List.mem_cons_of_mem _ h2⟩

theorem visitNbrs_has (lv : AMap String Nat) (v : String) (ws : List String) (k : String) :
    mapHas (visitNbrs lv v ws).1 k
      = (mapHas lv k || decide (k ∈ (visitNbrs lv v ws).2)) := by
  induction ws generalizing lv with
  | nil => simp [visitNbrs]
  | cons w ws ih =>
    rw [visitNbrs_cons]
    by_cases hw : mapHas lv w
    · rw [if_pos hw]; exact ih lv
    · rw [if_neg hw]
      simp only [List.mem_cons]
      rw [ih, mapHas_set]
      by_cases hk : k = w <;> simp [hk, hw]

theorem visitNbrs_nodup (lv : AMap String Nat) (v : String) (ws : List String) :
    (visitNbrs lv v ws).2.Nodup := by
  induction ws generalizing lv with
  | nil => simp [visitNbrs]
  | cons w ws ih =>
    rw [visitNbrs_cons]
    by_cases hw : mapHas lv w
    · rw [if_pos hw]; exact ih lv
    · rw [if_neg hw]
      refine List.nodup_cons.mpr ⟨?_, ih _⟩
      intro hmem
      have := (visitNbrs_newly_mem _ v ws w hmem).1
      rw [mapHas_set] at this
      simp at this

theorem visitNbrs_nil_fst (lv : AMap String Nat) (v : String) (ws : List String)
    (h : (visitNbrs lv v ws).2 = []) : (visitNbrs lv v ws).1 = lv := by
  induction ws generalizing lv with
  | nil => simp [visitNbrs]
  | cons w ws ih =>
    rw [visitNbrs_cons] at h ⊢
    by_cases hw : mapHas lv w
    · rw [if_pos hw] at h ⊢; exact ih lv h
    · rw [if_neg hw] at h; simp at h

/-- All targets stored in the adjacency map (used only for termination). -/
def allTargets (out : AMap String (List String)) : List String :=
  (out.map (fun p => p.2)).flatten

theorem getD_subset_allTargets (out : AMap String (List String)) (v : String) :
    ∀ w ∈ (mapGet out v).getD [], w ∈ allTargets out := by
  induction out with
  | nil => simp [mapGet]
  | cons p m ih =>
    by_cases hp : p.1 = v
    · rw [mapGet_cons, if_pos hp]
      simp only [Option.getD_some]
      intro w hw
      simp [allTargets]
      exact Or.inl hw
    · rw [mapGet_cons, if_neg hp]
      intro w hw
      have := ih w hw
      simp [allTargets] at this ⊢
      rcases this with ⟨l, hl, hwl⟩
      exact Or.inr ⟨l, hl, hwl⟩

/-- Number of yet-unlevelled potential targets (used only for termination). -/
def unvisited (out : AMap String (List String)) (lv : AMap String Nat) : Nat :=
  ((allTargets out).toFinset.filter (fun k => ¬ mapHas lv k)).card

theorem unvisited_step (out : AMap String (List String)) (lv : AMap String Nat) (v : String) :
    unvisited out (visitNbrs lv v ((mapGet out v).getD [])).1
      + (visitNbrs lv v ((mapGet out v).getD [])).2.length ≤ unvisited out lv := by
  have hNsub : (visitNbrs lv v ((mapGet out v).getD [])).2.toFinset
      ⊆ (allTargets out).toFinset.filter (fun k => ¬ mapHas lv k) := by
    intro w hw
    rw [List.mem_toFinset] at hw
    rcases visitNbrs_newly_mem lv v _ w hw with ⟨h1, h2⟩
    simp only [Finset.mem_filter, List.mem_toFinset]
    exact ⟨getD_subset_allTargets out v w h2, by simp [h1]⟩
  have hA1 : (allTargets out).toFinset.filter
        (fun k => ¬ mapHas (visitNbrs lv v ((mapGet out v).getD [])).1 k)
      ⊆ ((allTargets out).toFinset.filter (fun k => ¬ mapHas lv k))
          \ (visitNbrs lv v ((mapGet out v).getD [])).2.toFinset := by
    intro k hk
    simp only [Finset.mem_filter] at hk
    rcases hk with ⟨hkU, hk2⟩
    rw [visitNbrs_has lv v ((mapGet out v).getD []) k] at hk2
    simp only [Bool.or_eq_true, not_or] at hk2
    simp only [Finset.mem_sdiff, Finset.mem_filter]
    refine ⟨⟨hkU, hk2.1⟩, ?_⟩
    rw [List.mem_toFinset]
    intro hc
    exact hk2.2 (by simpa using hc)
  have hcard1 := Finset.card_le_card hA1
  rw [Finset.card_sdiff hNsub] at hcard1
  have hcard2 := Finset.card_le_card hNsub
  have hlen : (visitNbrs lv v ((mapGet out v).getD [])).2.toFinset.card
      = (visitNbrs lv v ((mapGet out v).getD [])).2.length :=
    List.toFinset_card_of_nodup (visitNbrs_nodup lv v _)
  unfold unvisited
  omega

/-- The `while (q.length)` BFS loop: dequeue with `shift`, discover neighbours
and enqueue them with `push`. -/
def bfsLoop (out : AMap String (List String)) (q : List String) (lv : AMap String Nat) :
    AMap String Nat :=
  match q with
  | [] => lv
  | v :: rest =>
    let s := visitNbrs lv v ((mapGet out v).getD [])
    bfsLoop out (rest ++ s.2) s.1
termination_by unvisited out lv * ((allTargets out).toFinset.card + 1) + q.length
decreasing_by
  simp only [List.length_append, List.length_cons]
  rcases h2 : (visitNbrs lv w ((mapGet out w).getD [])).2 with _ | ⟨y, ys⟩
  · have h1 := visitNbrs_nil_fst lv w ((mapGet out w).getD []) h2
    rw [h1]
    simp
  · simp only [List.length_cons]
    have hstep := unvisited_step out lv w
    rw [h2] at hstep
    simp only [List.length_cons] at hstep
    have hmul : (unvisited out (visitNbrs lv w ((mapGet out w).getD [])).1 + (ys.length + 1))
        * ((allTargets out).toFinset.card + 1)
        ≤ unvisited out lv * ((allTargets out).toFinset.card + 1) :=
      Nat.mul_le_mul_right _ hstep
    rw [Nat.add_mul] at hmul
    have hd : ys.length + 1 ≤ (ys.length + 1) * ((allTargets out).toFinset.card + 1) :=
      Nat.le_mul_of_pos_right _ (Nat.succ_pos _)
    omega

/-- `level.set(r, 0)` for every root, then the BFS loop on the root queue. -/
def levelMapOf (out : AMap String (List String)) (roots : List String) : AMap String Nat :=
  bfsLoop out roots (roots.foldl (fun m r => mapSet m r 0) [])

/-- `level.get(n.id) ?? 0`. -/
def levelOf (lvl : AMap String Nat) (id : String) : Nat := (mapGet lvl id).getD 0

/-- The bucket map: push each node's id onto the bucket of its level, in node
order. -/
def bucketsOf (nodes : List RFNode) (lvl : AMap String Nat) : AMap Nat (List String) :=
  nodes.foldl (fun bm n =>
    mapSet bm (levelOf lvl n.id) ((mapGet bm (levelOf lvl n.id)).getD [] ++ [n.id])) []

/-- `laid.find(nn => nn.id === id)!.position = p`: update the first node with
the given id. -/
def setPos (laid : List RFNode) (id : String) (p : ℚ × ℚ) : List RFNode :=
  match laid with
  | [] => []
  | n :: ns => if n.id = id then { n with position := p } :: ns else n :: setPos ns id p

/-- One bucket's placement pass: `ids.sort()`, compute `rowWidth` and `x0`,
then position every id of the bucket. -/
def placeBucket (xGap yGap : ℚ) (laid : List RFNode) (b : Nat × List String) :
    List RFNode :=
  let ids := jsSort (fun a b : String => a < b) b.2
  let x0 := -(((ids.length : ℚ) - 1) * xGap) / 2
  (ids.enum).foldl
    (fun l p => setPos l p.2 (x0 + (p.1 : ℚ) * xGap, (b.1 : ℚ) * yGap)) laid

/-- `layoutByLevels`: adjacency and in-degree maps, root selection, BFS
levelling, bucketing by level, and placement of the (key-sorted) buckets with
lexicographically sorted rows. `none` models the revision's thrown
`TypeError`s (unknown edge source, empty node list fallback). -/
def layoutByLevels (nodes : List RFNode) (edges : List RFEdge)
    (opts : LayoutOpts) : Option (List RFNode) :=
  let xGap := opts.xGap.getD 320
  let yGap := opts.yGap.getD 180
  match buildOut nodes edges, rootsOf nodes edges opts with
  | some out, some roots =>
    let lvl := levelMapOf out roots
    let sorted := jsSort (fun a b : Nat × List String => a.1 < b.1) (bucketsOf nodes lvl)
    some (sorted.foldl (placeBucket xGap yGap) nodes)
  | _, _ => none

end Editor

namespace Editor

theorem visitNbrs_fst_skip (lv : AMap String Nat) (v w : String) (ws : List String)
    (hw : mapHas lv w = true) :
    (visitNbrs lv v (w :: ws)).1 = (visitNbrs lv v ws).1 := by
  rw [visitNbrs_cons, if_pos hw]

theorem visitNbrs_fst_ins (lv : AMap String Nat) (v w : String) (ws : List String)
    (hw : mapHas lv w = false) :
    (visitNbrs lv v (w :: ws)).1
      = (visitNbrs (mapSet lv w ((mapGet lv v).getD 0 + 1)) v ws).1 := by
  rw [visitNbrs_cons, if_neg (by simp [hw])]

theorem visitNbrs_snd_skip (lv : AMap String Nat) (v w : String) (ws : List String)
    (hw : mapHas lv w = true) :
    (visitNbrs lv v (w :: ws)).2 = (visitNbrs lv v ws).2 := by
  rw [visitNbrs_cons, if_pos hw]

theorem visitNbrs_snd_ins (lv : AMap String Nat) (v w : String) (ws : List String)
    (hw : mapHas lv w = false) :
    (visitNbrs lv v (w :: ws)).2
      = w :: (visitNbrs (mapSet lv w ((mapGet lv v).getD 0 + 1)) v ws).2 := by
  rw [visitNbrs_cons, if_neg (by simp [hw])]

theorem init_roots_get (roots : List String) (acc : AMap String Nat) (k : String) :
    mapGet (roots.foldl (fun m r => mapSet m r 0) acc) k
      = if k ∈ roots then some 0 else mapGet acc k := by
  induction roots generalizing acc with
  | nil => simp
  | cons r rest ih =>
    simp only [List.foldl_cons]
    rw [ih]
    by_cases hk : k ∈ rest
    · rw [if_pos hk, if_pos (List.mem_cons_of_mem _ hk)]
    · rw [if_neg hk, mapGet_set]
      by_cases hkr : k = r
      · rw [if_pos hkr, if_pos (by rw [hkr]; exact List.mem_cons_self _ _)]
      · rw [if_neg hkr, if_neg (by simp [hkr, hk])]

theorem visitNbrs_get_stable (lv : AMap String Nat) (v : String) (ws : List String)
    (k : String) (hk : mapHas lv k = true) :
    mapGet (visitNbrs lv v ws).1 k = mapGet lv k := by
  induction ws generalizing lv with
  | nil => simp [visitNbrs]
  | cons w ws ih =>
    by_cases hw : mapHas lv w
    · rw [visitNbrs_fst_skip lv v w ws hw]
      exact ih lv hk
    · rw [visitNbrs_fst_ins lv v w ws (by simpa using hw)]
      have hkw : ¬ k = w := fun he => hw (he ▸ hk)
      have hk2 : mapHas (mapSet lv w ((mapGet lv v).getD 0 + 1)) k = true := by
        rw [mapHas_set]
        simp [hk]
      rw [ih _ hk2, mapGet_set, if_neg hkw]

theorem visitNbrs_get (lv : AMap String Nat) (v : String) (ws : List String) (k : String)
    (hv : mapHas lv v = true) :
    mapGet (visitNbrs lv v ws).1 k
      = (if mapHas lv k then mapGet lv k
          else if k ∈ (visitNbrs lv v ws).2 then some ((mapGet lv v).getD 0 + 1) else none) := by
  induction ws generalizing lv with
  | nil =>
    by_cases hk : mapHas lv k
    · simp [visitNbrs, hk]
    · have hnone : mapGet lv k = none :=
        Option.not_isSome_iff_eq_none.mp (by simpa [mapHas] using hk)
      simp [visitNbrs, hk, hnone]
  | cons w ws ih =>
    by_cases hw : mapHas lv w
    · rw [visitNbrs_fst_skip lv v w ws hw, visitNbrs_snd_skip lv v w ws hw]
      exact ih lv hv
    · have hw' : mapHas lv w = false := by simpa using hw
      rw [visitNbrs_fst_ins lv v w ws hw', visitNbrs_snd_ins lv v w ws hw']
      have hvw : ¬ v = w := fun he => hw (he ▸ hv)
      have hv2 : mapHas (mapSet lv w ((mapGet lv v).getD 0 + 1)) v = true := by
        rw [mapHas_set]
        simp [hv]
      have hbase : mapGet (mapSet lv w ((mapGet lv v).getD 0 + 1)) v = mapGet lv v := by
        rw [mapGet_set, if_neg hvw]
      rw [ih _ hv2, hbase]
      by_cases hkw : k = w
      · have hLk : mapHas (mapSet lv w ((mapGet lv v).getD 0 + 1)) k = true := by
          rw [mapHas_set]
          simp [hkw]
        rw [if_pos hLk, mapGet_set, if_pos hkw]
        rw [if_neg (by rw [hkw]; simp [hw'])]
        rw [if_pos (by rw [hkw]; exact List.mem_cons_self _ _)]
      · have h1 : mapHas (mapSet lv w ((mapGet lv v).getD 0 + 1)) k = mapHas lv k := by
          rw [mapHas_set]
          simp [hkw]
        have h2 : mapGet (mapSet lv w ((mapGet lv v).getD 0 + 1)) k = mapGet lv k := by
          rw [mapGet_set, if_neg hkw]
        rw [h1, h2]
        by_cases hk : mapHas lv k
        · rw [if_pos hk, if_pos hk]
        · rw [if_neg hk, if_neg hk]
          have hmem : (k ∈ w :: (visitNbrs (mapSet lv w ((mapGet lv v).getD 0 + 1)) v ws).2)
              ↔ (k ∈ (visitNbrs (mapSet lv w ((mapGet lv v).getD 0 + 1)) v ws).2) := by
            constructor
            · intro h
              rcases List.mem_cons.mp h with h | h
              · exact absurd h hkw
              · exact h
            · exact List.mem_cons_of_mem _
          by_cases hm : k ∈ (visitNbrs (mapSet lv w ((mapGet lv v).getD 0 + 1)) v ws).2
          · rw [if_pos hm, if_pos (hmem.mpr hm)]
          · rw [if_neg hm, if_neg (fun hc => hm (hmem.mp hc))]

theorem bfsLoop_nil (out : AMap String (List String)) (lv : AMap String Nat) :
    bfsLoop out [] lv = lv := by
  rw [bfsLoop]

theorem bfsLoop_cons (out : AMap String (List String)) (v : String) (rest : List String)
    (lv : AMap String Nat) :
    bfsLoop out (v :: rest) lv
      = bfsLoop out (rest ++ (visitNbrs lv v ((mapGet out v).getD [])).2)
          (visitNbrs lv v ((mapGet out v).getD [])).1 := by
  rw [bfsLoop]

theorem mapHas_mono_visit (lv : AMap String Nat) (v : String) (ws : List String) (k : String)
    (hk : mapHas lv k = true) : mapHas (visitNbrs lv v ws).1 k = true := by
  rw [visitNbrs_has]
  simp [hk]

theorem bfsLoop_persist (out : AMap String (List String)) :
    ∀ (q : List String) (lv : AMap String Nat) (k : String), mapHas lv k = true →
      mapGet (bfsLoop out q lv) k = mapGet lv k := by
  intro q lv
  induction q, lv using bfsLoop.induct out with
  | case1 lv =>
    intro k _
    rw [bfsLoop_nil]
  | case2 lv w ws s ih =>
    intro k hk
    rw [bfsLoop_cons]
    have hk2 : mapHas (visitNbrs lv w ((mapGet out w).getD [])).1 k = true :=
      mapHas_mono_visit lv w _ k hk
    rw [ih k hk2]
    exact visitNbrs_get_stable lv w _ k hk

/-- The level-assignment invariant of the claim: every levelled key is a root
at level 0 or was discovered from a predecessor `v` one level below along an
adjacency-list edge. -/
def bfsInv (out : AMap String (List String)) (roots : List String)
    (m : AMap String Nat) : Prop :=
  ∀ k L, mapGet m k = some L →
    (k ∈ roots ∧ L = 0)
      ∨ ∃ v Lv, mapGet m v = some Lv ∧ L = Lv + 1 ∧ k ∈ (mapGet out v).getD []

theorem bfsLoop_inv (out : AMap String (List String)) (roots : List String) :
    ∀ (q : List String) (lv : AMap String Nat),
      (∀ v ∈ q, mapHas lv v = true) → bfsInv out roots lv →
      bfsInv out roots (bfsLoop out q lv) := by
  intro q lv
  induction q, lv using bfsLoop.induct out with
  | case1 lv =>
    intro _ hInv
    rw [bfsLoop_nil]
    exact hInv
  | case2 lv w ws s ih =>
    intro hQ hInv
    rw [bfsLoop_cons]
    have hv : mapHas lv w = true := hQ w (List.mem_cons_self _ _)
    apply ih
    · intro v hvmem
      rcases List.mem_append.mp hvmem with h | h
      · exact mapHas_mono_visit lv w _ v (hQ v (List.mem_cons_of_mem _ h))
      · rw [visitNbrs_has]
        simp [h]
    · intro k L hkL
      rw [visitNbrs_get lv w _ k hv] at hkL
      by_cases hk : mapHas lv k
      · rw [if_pos hk] at hkL
        rcases hInv k L hkL with h | ⟨v2, Lv, hget, hL, hmem⟩
        · exact Or.inl h
        · refine Or.inr ⟨v2, Lv, ?_, hL, hmem⟩
          have hv2 : mapHas lv v2 = true := by rw [mapHas, hget]; rfl
          rw [visitNbrs_get_stable lv w _ v2 hv2]
          exact hget
      · rw [if_neg hk] at hkL
        by_cases hmem : k ∈ (visitNbrs lv w ((mapGet out w).getD [])).2
        · rw [if_pos hmem] at hkL
          cases hw0 : mapGet lv w with
          | none =>
            rw [mapHas, hw0] at hv
            simp at hv
          | some Lw =>
            refine Or.inr ⟨w, Lw, ?_, ?_, ?_⟩
            · rw [visitNbrs_get_stable lv w _ w hv, hw0]
            · rw [hw0] at hkL
              simp only [Option.getD_some, Option.some.injEq] at hkL
              exact hkL.symm
            · exact (visitNbrs_newly_mem lv w _ k hmem).2
        · rw [if_neg hmem] at hkL
          exact absurd hkL (by simp)

theorem levelMapOf_root (out : AMap String (List String)) (roots : List String) (r : String)
    (hr : r ∈ roots) : mapGet (levelMapOf out roots) r = some 0 := by
  unfold levelMapOf
  have h0 : mapGet (roots.foldl (fun m r => mapSet m r 0) []) r = some 0 := by
    rw [init_roots_get]
    simp [hr]
  rw [bfsLoop_persist out roots _ r (by rw [mapHas, h0]; rfl)]
  exact h0

theorem levelMapOf_inv (out : AMap String (List String)) (roots : List String) :
    bfsInv out roots (levelMapOf out roots) := by
  unfold levelMapOf
  apply bfsLoop_inv
  · intro v hv
    rw [mapHas, init_roots_get]
    simp [hv]
  · intro k L h
    rw [init_roots_get] at h
    by_cases hk : k ∈ roots
    · rw [if_pos hk] at h
      simp only [Option.some.injEq] at h
      exact Or.inl ⟨hk, h.symm⟩
    · rw [if_neg hk, mapGet_nil] at h
      exact absurd h (by simp)

/-- The claim's per-level id row: the ids of the nodes at level `L`, in node
order. -/
def specLevelIds (nodes : List RFNode) (lvl : AMap String Nat) (L : Nat) : List String :=
  (nodes.filter (fun n => levelOf lvl n.id = L)).map (fun n => n.id)

/-- The claim's position formula: level times `yGap` vertically; horizontally
the index in the sorted row times `xGap`, centred on `x = 0`. -/
def specPos (xGap yGap : ℚ) (nodes : List RFNode) (lvl : AMap String Nat) (id : String) :
    ℚ × ℚ :=
  let ids := jsSort (fun a b : String => a < b) (specLevelIds nodes lvl (levelOf lvl id))
  (-(((ids.length : ℚ) - 1) * xGap) / 2
      + ((ids.findIdx (fun s => s == id) : ℕ) : ℚ) * xGap,
   ((levelOf lvl id : ℕ) : ℚ) * yGap)

theorem bucketsOf_fold_get (lvl : AMap String Nat) (ns : List RFNode)
    (bm : AMap Nat (List String)) (L : Nat) :
    mapGet (ns.foldl (fun bm n =>
        mapSet bm (levelOf lvl n.id) ((mapGet bm (levelOf lvl n.id)).getD [] ++ [n.id])) bm) L
      = (if mapGet bm L = none ∧ ((ns.filter (fun n => levelOf lvl n.id = L)).map
            (fun n => n.id)) = []
         then none
         else some ((mapGet bm L).getD []
            ++ (ns.filter (fun n => levelOf lvl n.id = L)).map (fun n => n.id))) := by
  induction ns generalizing bm with
  | nil =>
    simp only [List.foldl_nil, List.filter_nil, List.map_nil, List.append_nil, and_true]
    cases hbm : mapGet bm L with
    | none => simp
    | some l => simp
  | cons n ns ih =>
    simp only [List.foldl_cons]
    rw [ih]
    by_cases hL : levelOf lvl n.id = L
    · have hget : mapGet (mapSet bm (levelOf lvl n.id)
          ((mapGet bm (levelOf lvl n.id)).getD [] ++ [n.id])) L
          = some ((mapGet bm L).getD [] ++ [n.id]) := by
        rw [mapGet_set, if_pos hL.symm, hL]
      rw [hget]
      have hfil : (n :: ns).filter (fun n => levelOf lvl n.id = L)
          = n :: ns.filter (fun n => levelOf lvl n.id = L) := by
        rw [List.filter_cons, if_pos (by simp [hL])]
      rw [hfil, List.map_cons]
      rw [if_neg (by simp), if_neg (by simp)]
      simp
    · have hget : mapGet (mapSet bm (levelOf lvl n.id)
          ((mapGet bm (levelOf lvl n.id)).getD [] ++ [n.id])) L = mapGet bm L := by
        rw [mapGet_set, if_neg (fun he => hL he.symm)]
      rw [hget]
      have hfil : (n :: ns).filter (fun n => levelOf lvl n.id = L)
          = ns.filter (fun n => levelOf lvl n.id = L) := by
        rw [List.filter_cons, if_neg (by simp [hL])]
      rw [hfil]

theorem bucketsOf_get (nodes : List RFNode) (lvl : AMap String Nat) (L : Nat) :
    mapGet (bucketsOf nodes lvl) L
      = (if specLevelIds nodes lvl L = [] then none else some (specLevelIds nodes lvl L)) := by
  unfold bucketsOf specLevelIds
  rw [bucketsOf_fold_get]
  rw [mapGet_nil]
  simp

theorem mapSet_keys_mem {K V : Type} [DecidableEq K] (m : AMap K V) (k : K) (v : V) (x : K) :
    x ∈ (mapSet m k v).map Prod.fst ↔ x ∈ m.map Prod.fst ∨ x = k := by
  induction m with
  | nil => simp [mapSet]
  | cons p m ih =>
    rw [mapSet_cons]
    by_cases hp : p.1 = k
    · rw [if_pos hp]
      simp only [List.map_cons, List.mem_cons]
      constructor
      · rintro (h | h)
        · exact Or.inr h
        · exact Or.inl (Or.inr h)
      · rintro ((h | h) | h)
        · exact Or.inl (h.trans hp)
        · exact Or.inr h
        · exact Or.inl h
    · rw [if_neg hp]
      simp only [List.map_cons, List.mem_cons, ih]
      tauto

theorem mapSet_keys_nodup {K V : Type} [DecidableEq K] (m : AMap K V) (k : K) (v : V)
    (h : (m.map Prod.fst).Nodup) : ((mapSet m k v).map Prod.fst).Nodup := by
  induction m with
  | nil => simp [mapSet]
  | cons p m ih =>
    rw [List.map_cons, List.nodup_cons] at h
    rw [mapSet_cons]
    by_cases hp : p.1 = k
    · rw [if_pos hp]
      rw [List.map_cons, List.nodup_cons]
      exact ⟨hp ▸ h.1, h.2⟩
    · rw [if_neg hp]
      rw [List.map_cons, List.nodup_cons]
      refine ⟨?_, ih h.2⟩
      intro hc
      rcases (mapSet_keys_mem m k v p.1).mp hc with hc | hc
      · exact h.1 hc
      · exact hp hc

theorem bucketsOf_keys_nodup (nodes : List RFNode) (lvl : AMap String Nat) :
    ((bucketsOf nodes lvl).map Prod.fst).Nodup := by
  unfold bucketsOf
  suffices h : ∀ (ns : List RFNode) (bm : AMap Nat (List String)),
      (bm.map Prod.fst).Nodup →
      ((ns.foldl (fun bm n =>
        mapSet bm (levelOf lvl n.id) ((mapGet bm (levelOf lvl n.id)).getD [] ++ [n.id])) bm).map
          Prod.fst).Nodup by
    exact h nodes [] List.nodup_nil
  intro ns
  induction ns with
  | nil => intro bm h; exact h
  | cons n ns ih =>
    intro bm h
    simp only [List.foldl_cons]
    exact ih _ (mapSet_keys_nodup _ _ _ h)

theorem mapGet_of_mem_nodup {K V : Type} [DecidableEq K] (m : AMap K V) (p : K × V)
    (hm : p ∈ m) (h : (m.map Prod.fst).Nodup) : mapGet m p.1 = some p.2 := by
  induction m with
  | nil => exact absurd hm (List.not_mem_nil p)
  | cons q m ih =>
    rw [List.map_cons, List.nodup_cons] at h
    rcases List.mem_cons.mp hm with hq | hq
    · rw [hq, mapGet_cons, if_pos rfl]
    · have hne : ¬ q.1 = p.1 := by
        intro he
        exact h.1 (he ▸ List.mem_map_of_mem Prod.fst hq)
      rw [mapGet_cons, if_neg hne]
      exact ih hq h.2

theorem mem_of_mapGet {K V : Type} [DecidableEq K] (m : AMap K V) (k : K) (v : V)
    (h : mapGet m k = some v) : (k, v) ∈ m := by
  induction m with
  | nil => simp [mapGet] at h
  | cons p m ih =>
    rw [mapGet_cons] at h
    by_cases hp : p.1 = k
    · rw [if_pos hp] at h
      simp only [Option.some.injEq] at h
      have : p = (k, v) := by
        cases p
        simp only at hp h
        rw [hp, h]
      exact this ▸ List.mem_cons_self _ _
    · rw [if_neg hp] at h
      exact List.mem_cons_of_mem _ (ih h)

theorem setPos_map_noid (laid : List RFNode) (id : String) (p : ℚ × ℚ)
    (h : ∀ n ∈ laid, n.id ≠ id) :
    laid.map (fun n => if n.id = id then { n with position := p } else n) = laid := by
  induction laid with
  | nil => rfl
  | cons n ns ih =>
    rw [List.map_cons, if_neg (h n (List.mem_cons_self _ _)), ih
      (fun m hm => h m (List.mem_cons_of_mem _ hm))]

theorem setPos_eq_map (laid : List RFNode) (id : String) (p : ℚ × ℚ)
    (h : (laid.map (fun n => n.id)).Nodup) :
    setPos laid id p = laid.map (fun n => if n.id = id then { n with position := p } else n) := by
  induction laid with
  | nil => rfl
  | cons n ns ih =>
    rw [List.map_cons, List.nodup_cons] at h
    rw [setPos, List.map_cons]
    by_cases hn : n.id = id
    · rw [if_pos hn, if_pos hn]
      rw [setPos_map_noid ns id p ?hno]
      case hno =>
        intro m hm he
        apply h.1
        have hmm : m.id ∈ ns.map (fun n => n.id) := List.mem_map_of_mem _ hm
        rw [he, ← hn] at hmm
        exact hmm
    · rw [if_neg hn, if_neg hn, ih h.2]

theorem map_update_ids (laid : List RFNode) (f : RFNode → RFNode)
    (hf : ∀ n, (f n).id = n.id) :
    (laid.map f).map (fun n => n.id) = laid.map (fun n => n.id) := by
  rw [List.map_map]
  exact List.map_congr_left (fun n _ => hf n)

theorem placeFold (xGap y x0 : ℚ) (rem : List String) :
    ∀ (laid : List RFNode) (j : Nat), (laid.map (fun n => n.id)).Nodup → rem.Nodup →
    (List.enumFrom j rem).foldl
        (fun l p => setPos l p.2 (x0 + (p.1 : ℚ) * xGap, y)) laid
      = laid.map (fun n =>
          if n.id ∈ rem
          then { n with position :=
              (x0 + ((j + rem.findIdx (fun s => s == n.id) : ℕ) : ℚ) * xGap, y) }
          else n) := by
  induction rem with
  | nil =>
    intro laid j _ _
    simp
  | cons id0 rest ih =>
    intro laid j hlaid hrem
    have henum : List.enumFrom j (id0 :: rest) = (j, id0) :: List.enumFrom (j + 1) rest := rfl
    rw [henum, List.foldl_cons]
    rw [show setPos laid id0 (x0 + ((j : ℕ) : ℚ) * xGap, y)
        = laid.map (fun n => if n.id = id0
            then { n with position := (x0 + ((j : ℕ) : ℚ) * xGap, y) } else n)
      from setPos_eq_map laid id0 _ hlaid]
    have hids1 : ((laid.map (fun n => if n.id = id0
        then { n with position := (x0 + ((j : ℕ) : ℚ) * xGap, y) } else n)).map
          (fun n => n.id)) = laid.map (fun n => n.id) := by
      refine map_update_ids laid _ ?_
      intro n
      by_cases hn : n.id = id0
      · rw [if_pos hn]
      · rw [if_neg hn]
    rw [ih _ (j + 1) (by rw [hids1]; exact hlaid) (List.nodup_cons.mp hrem).2]
    rw [List.map_map]
    refine List.map_congr_left ?_
    intro n _
    simp only [Function.comp_apply]
    by_cases h0 : n.id = id0
    · have hnr : n.id ∉ rest := by
        rw [h0]
        exact (List.nodup_cons.mp hrem).1
      rw [if_pos h0]
      rw [if_neg (show ¬ (({ n with position := (x0 + ((j : ℕ) : ℚ) * xGap, y) }
          : RFNode).id ∈ rest) from hnr)]
      rw [if_pos (show n.id ∈ id0 :: rest from h0 ▸ List.mem_cons_self _ _)]
      have hidx : (id0 :: rest).findIdx (fun s => s == n.id) = 0 := by
        rw [List.findIdx_cons]
        have : (id0 == n.id) = true := by simp [h0]
        rw [this]
        rfl
      rw [hidx]
      norm_num
    · rw [if_neg h0]
      by_cases hr : n.id ∈ rest
      · rw [if_pos hr, if_pos (List.mem_cons_of_mem _ hr)]
        have hidx : (id0 :: rest).findIdx (fun s => s == n.id)
            = rest.findIdx (fun s => s == n.id) + 1 := by
          rw [List.findIdx_cons]
          have : (id0 == n.id) = false := by
            simp only [beq_eq_false_iff_ne, ne_eq]
            exact fun he => h0 he.symm
          rw [this]
          rfl
        rw [hidx]
        have harith : j + 1 + rest.findIdx (fun s => s == n.id)
            = j + (rest.findIdx (fun s => s == n.id) + 1) := by omega
        rw [harith]
      · rw [if_neg hr, if_neg (by
          intro hc
          rcases List.mem_cons.mp hc with h | h
          · exact h0 h
          · exact hr h)]

/-- The per-node effect of placing every (key-sorted) bucket: look the node's
id up in the first bucket whose sorted row contains it and position it by the
row formula. -/
def updBuckets (xGap yGap : ℚ) (bs : List (Nat × List String)) (n : RFNode) : RFNode :=
  match bs.find? (fun b => n.id ∈ jsSort (fun a b : String => a < b) b.2) with
  | some b =>
    { n with position :=
        (-(((jsSort (fun a b : String => a < b) b.2).length : ℚ) - 1) * xGap / 2
            + (((jsSort (fun a b : String => a < b) b.2).findIdx
                (fun s => s == n.id) : ℕ) : ℚ) * xGap,
         ((b.1 : ℕ) : ℚ) * yGap) }
  | none => n

theorem placeBucket_eq_map (xGap yGap : ℚ) (laid : List RFNode) (b : Nat × List String)
    (hlaid : (laid.map (fun n => n.id)).Nodup) (hb : b.2.Nodup) :
    placeBucket xGap yGap laid b
      = laid.map (fun n =>
          if n.id ∈ jsSort (fun a b : String => a < b) b.2
          then { n with position :=
              (-(((jsSort (fun a b : String => a < b) b.2).length : ℚ) - 1) * xGap / 2
                  + (((jsSort (fun a b : String => a < b) b.2).findIdx
                      (fun s => s == n.id) : ℕ) : ℚ) * xGap,
               ((b.1 : ℕ) : ℚ) * yGap) }
          else n) := by
  unfold placeBucket
  simp only []
  have hsortnd : (jsSort (fun a b : String => a < b) b.2).Nodup :=
    (jsSort_perm _ b.2).nodup_iff.mpr hb
  rw [show (jsSort (fun a b : String => a < b) b.2).enum
      = List.enumFrom 0 (jsSort (fun a b : String => a < b) b.2) from rfl]
  rw [placeFold xGap (((b.1 : ℕ) : ℚ) * yGap)
    (-((((jsSort (fun a b : String => a < b) b.2).length : ℚ) - 1) * xGap) / 2)
    (jsSort (fun a b : String => a < b) b.2) laid 0 hlaid hsortnd]
  refine List.map_congr_left ?_
  intro n _
  by_cases hn : n.id ∈ jsSort (fun a b : String => a < b) b.2
  · rw [if_pos hn, if_pos hn]
    have : ((0 + (jsSort (fun a b : String => a < b) b.2).findIdx
        (fun s => s == n.id) : ℕ) : ℚ)
        = (((jsSort (fun a b : String => a < b) b.2).findIdx (fun s => s == n.id) : ℕ) : ℚ) := by
      norm_num
    rw [this]
    have hx0 : -((((jsSort (fun a b : String => a < b) b.2).length : ℚ) - 1) * xGap) / 2
        = -(((jsSort (fun a b : String => a < b) b.2).length : ℚ) - 1) * xGap / 2 := by
      ring
    rw [hx0]
  · rw [if_neg hn, if_neg hn]

theorem fold_placeBucket (xGap yGap : ℚ) (bs : List (Nat × List String)) :
    ∀ (laid : List RFNode), (laid.map (fun n => n.id)).Nodup →
    (∀ b ∈ bs, b.2.Nodup) →
    bs.Pairwise (fun b1 b2 => ∀ x, x ∈ b1.2 → x ∉ b2.2) →
    bs.foldl (placeBucket xGap yGap) laid = laid.map (updBuckets xGap yGap bs) := by
  induction bs with
  | nil =>
    intro laid _ _ _
    have : updBuckets xGap yGap [] = fun n => n := by
      funext n
      unfold updBuckets
      rfl
    rw [List.foldl_nil, this]
    simp
  | cons b rest ih =>
    intro laid hlaid hbn hdisj
    rw [List.foldl_cons]
    rw [placeBucket_eq_map xGap yGap laid b hlaid (hbn b (List.mem_cons_self _ _))]
    have hids1 : ((laid.map (fun n =>
        if n.id ∈ jsSort (fun a b : String => a < b) b.2
        then { n with position :=
            (-(((jsSort (fun a b : String => a < b) b.2).length : ℚ) - 1) * xGap / 2
                + (((jsSort (fun a b : String => a < b) b.2).findIdx
                    (fun s => s == n.id) : ℕ) : ℚ) * xGap,
             ((b.1 : ℕ) : ℚ) * yGap) }
        else n)).map (fun n => n.id)) = laid.map (fun n => n.id) := by
      refine map_update_ids laid _ ?_
      intro n
      by_cases hn : n.id ∈ jsSort (fun a b : String => a < b) b.2
      · rw [if_pos hn]
      · rw [if_neg hn]
    rw [ih _ (by rw [hids1]; exact hlaid)
      (fun b2 hb2 => hbn b2 (List.mem_cons_of_mem _ hb2))
      (List.pairwise_cons.mp hdisj).2]
    rw [List.map_map]
    refine List.map_congr_left ?_
    intro n _
    simp only [Function.comp_apply]
    by_cases hn : n.id ∈ jsSort (fun a b : String => a < b) b.2
    · rw [if_pos hn]
      have hmem2 : n.id ∈ b.2 := (jsSort_perm _ b.2).mem_iff.mp hn
      have hnone : rest.find? (fun b2 =>
          (({ n with position :=
            (-(((jsSort (fun a b : String => a < b) b.2).length : ℚ) - 1) * xGap / 2
                + (((jsSort (fun a b : String => a < b) b.2).findIdx
                    (fun s => s == n.id) : ℕ) : ℚ) * xGap,
             ((b.1 : ℕ) : ℚ) * yGap) } : RFNode).id
            ∈ jsSort (fun a b : String => a < b) b2.2)) = none := by
        refine List.find?_eq_none.mpr ?_
        intro b2 hb2
        simp only [decide_eq_true_eq]
        intro hc
        have hc2 : n.id ∈ b2.2 := (jsSort_perm _ b2.2).mem_iff.mp hc
        exact ((List.pairwise_cons.mp hdisj).1 b2 hb2 n.id hmem2) hc2
      unfold updBuckets
      rw [hnone]
      have hfind : (b :: rest).find? (fun b2 =>
          n.id ∈ jsSort (fun a b : String => a < b) b2.2) = some b := by
        exact List.find?_cons_of_pos _ (by simpa using hn)
      rw [hfind]
    · rw [if_neg hn]
      unfold updBuckets
      have hfind : (b :: rest).find? (fun b2 =>
          n.id ∈ jsSort (fun a b : String => a < b) b2.2)
          = rest.find? (fun b2 => n.id ∈ jsSort (fun a b : String => a < b) b2.2) := by
        exact List.find?_cons_of_neg _ (by simpa using hn)
      rw [hfind]

theorem jsIns_cons {α : Type} (lt : α → α → Bool) (x y : α) (ys : List α) :
    jsIns lt x (y :: ys) = if lt x y then x :: y :: ys else y :: jsIns lt x ys := rfl

theorem jsIns_sorted {α : Type} (lt : α → α → Bool)
    (hasym : ∀ a b, lt a b = true → lt b a = false)
    (htr : ∀ a b c, lt a b = true → lt c b = false → lt c a = false)
    (x : α) (l : List α) (h : l.Pairwise (fun a b => lt b a = false)) :
    (jsIns lt x l).Pairwise (fun a b => lt b a = false) := by
  induction l with
  | nil => simp [jsIns]
  | cons y ys ih =>
    rw [List.pairwise_cons] at h
    rw [jsIns_cons]
    by_cases hxy : lt x y = true
    · rw [if_pos hxy]
      refine List.pairwise_cons.mpr ⟨?_, List.pairwise_cons.mpr h⟩
      intro z hz
      rcases List.mem_cons.mp hz with h1 | h1
      · exact h1 ▸ hasym x y hxy
      · exact htr x y z hxy (h.1 z h1)
    · rw [if_neg hxy]
      refine List.pairwise_cons.mpr ⟨?_, ih h.2⟩
      intro z hz
      rcases List.mem_cons.mp ((jsIns_perm lt x ys).mem_iff.mp hz) with h1 | h1
      · rw [h1]
        exact Bool.eq_false_iff.mpr hxy
      · exact h.1 z h1

theorem jsSort_sorted {α : Type} (lt : α → α → Bool)
    (hasym : ∀ a b, lt a b = true → lt b a = false)
    (htr : ∀ a b c, lt a b = true → lt c b = false → lt c a = false)
    (l : List α) : (jsSort lt l).Pairwise (fun a b => lt b a = false) := by
  unfold jsSort
  suffices h : ∀ acc : List α, acc.Pairwise (fun a b => lt b a = false) →
      (l.foldl (fun acc x => jsIns lt x acc) acc).Pairwise (fun a b => lt b a = false) from
    h [] List.Pairwise.nil
  induction l with
  | nil => intro acc h; exact h
  | cons x xs ih =>
    intro acc h
    simp only [List.foldl_cons]
    exact ih _ (jsIns_sorted lt hasym htr x acc h)

theorem jsSortStr_sorted (l : List String) :
    (jsSort (fun a b : String => a < b) l).Pairwise (fun a b => a ≤ b) := by
  have h := jsSort_sorted (fun a b : String => a < b) ?_ ?_ l
  · refine h.imp ?_
    intro a b hab
    exact le_of_not_lt (by simpa using hab)
  · intro a b hab
    simp only [decide_eq_true_eq] at hab
    simp only [decide_eq_false_iff_not]
    exact lt_asymm hab
  · intro a b c hab hcb
    simp only [decide_eq_true_eq] at hab
    simp only [decide_eq_false_iff_not] at hcb ⊢
    intro hca
    exact hcb (lt_trans hca hab)

theorem specLevelIds_level (nodes : List RFNode) (lvl : AMap String Nat) (L : Nat)
    (x : String) (h : x ∈ specLevelIds nodes lvl L) : levelOf lvl x = L := by
  unfold specLevelIds at h
  rcases List.mem_map.mp h with ⟨n, hn, hid⟩
  have h2 := (List.mem_filter.mp hn).2
  simp only [decide_eq_true_eq] at h2
  rw [← hid]
  exact h2

theorem specLevelIds_self (nodes : List RFNode) (lvl : AMap String Nat) (n : RFNode)
    (hn : n ∈ nodes) : n.id ∈ specLevelIds nodes lvl (levelOf lvl n.id) := by
  unfold specLevelIds
  exact List.mem_map_of_mem _ (List.mem_filter.mpr ⟨hn, by simp⟩)

theorem specLevelIds_nodup (nodes : List RFNode) (lvl : AMap String Nat) (L : Nat)
    (hnd : (nodes.map (fun n => n.id)).Nodup) : (specLevelIds nodes lvl L).Nodup := by
  unfold specLevelIds
  exact hnd.sublist ((List.filter_sublist nodes).map _)

theorem bucket_char (nodes : List RFNode) (lvl : AMap String Nat)
    (b : Nat × List String) (hb : b ∈ bucketsOf nodes lvl) :
    b.2 = specLevelIds nodes lvl b.1 ∧ b.2 ≠ [] := by
  have hget : mapGet (bucketsOf nodes lvl) b.1 = some b.2 :=
    mapGet_of_mem_nodup _ b hb (bucketsOf_keys_nodup nodes lvl)
  rw [bucketsOf_get] at hget
  by_cases he : specLevelIds nodes lvl b.1 = []
  · rw [if_pos he] at hget
    exact absurd hget (by simp)
  · rw [if_neg he] at hget
    simp only [Option.some.injEq] at hget
    exact ⟨hget.symm, fun hc => he (hget ▸ hc)⟩

theorem find_first_unique {α : Type} (p : α → Bool) (l : List α) (b0 : α)
    (hmem : b0 ∈ l) (hp : p b0 = true) (huniq : ∀ b ∈ l, p b = true → b = b0) :
    l.find? p = some b0 := by
  induction l with
  | nil => cases hmem
  | cons a l ih =>
    by_cases ha : p a = true
    · rw [List.find?_cons_of_pos _ ha, huniq a (List.mem_cons_self _ _) ha]
    · rw [List.find?_cons_of_neg _ (by simpa using ha)]
      refine ih ?_ (fun b hb hpb => huniq b (List.mem_cons_of_mem _ hb) hpb)
      rcases List.mem_cons.mp hmem with h | h
      · exact absurd (h ▸ hp) ha
      · exact h

theorem updBuckets_spec (xGap yGap : ℚ) (nodes : List RFNode) (lvl : AMap String Nat)
    (n : RFNode) (hn : n ∈ nodes) :
    updBuckets xGap yGap
        (jsSort (fun a b : Nat × List String => a.1 < b.1) (bucketsOf nodes lvl)) n
      = { n with position := specPos xGap yGap nodes lvl n.id } := by
  have hmem : n.id ∈ specLevelIds nodes lvl (levelOf lvl n.id) := specLevelIds_self nodes lvl n hn
  have hneL : specLevelIds nodes lvl (levelOf lvl n.id) ≠ [] := by
    intro h
    rw [h] at hmem
    cases hmem
  have hbm : mapGet (bucketsOf nodes lvl) (levelOf lvl n.id)
      = some (specLevelIds nodes lvl (levelOf lvl n.id)) := by
    rw [bucketsOf_get, if_neg hneL]
  have hmemB : (levelOf lvl n.id, specLevelIds nodes lvl (levelOf lvl n.id))
      ∈ bucketsOf nodes lvl := mem_of_mapGet _ _ _ hbm
  have hfind : (jsSort (fun a b : Nat × List String => a.1 < b.1)
        (bucketsOf nodes lvl)).find?
      (fun b => n.id ∈ jsSort (fun a b : String => a < b) b.2)
      = some (levelOf lvl n.id, specLevelIds nodes lvl (levelOf lvl n.id)) := by
    refine find_first_unique _ _ _ ((jsSort_perm _ _).mem_iff.mpr hmemB) ?_ ?_
    · simp only [decide_eq_true_eq]
      exact (jsSort_perm _ _).mem_iff.mpr hmem
    · rintro ⟨bL, bids⟩ hb hpb
      have hbB : (bL, bids) ∈ bucketsOf nodes lvl := (jsSort_perm _ _).mem_iff.mp hb
      have hb2 : bids = specLevelIds nodes lvl bL := (bucket_char nodes lvl (bL, bids) hbB).1
      simp only [decide_eq_true_eq] at hpb
      have hidb : n.id ∈ specLevelIds nodes lvl bL := by
        rw [← hb2]
        exact (jsSort_perm _ _).mem_iff.mp hpb
      have hbL : levelOf lvl n.id = bL := specLevelIds_level nodes lvl bL n.id hidb
      rw [Prod.mk.injEq]
      exact ⟨hbL.symm, by rw [hb2, ← hbL]⟩
  unfold updBuckets
  rw [hfind]
  unfold specPos
  simp only []
  refine congrArg (fun p => { n with position := p }) ?_
  refine Prod.ext ?_ ?_
  · ring
  · rfl

theorem bucketsOf_disjoint (nodes : List RFNode) (lvl : AMap String Nat) :
    (bucketsOf nodes lvl).Pairwise (fun b1 b2 => ∀ x, x ∈ b1.2 → x ∉ b2.2) := by
  have hkeys := bucketsOf_keys_nodup nodes lvl
  have hpair : (bucketsOf nodes lvl).Pairwise (fun b1 b2 => b1.1 ≠ b2.1) :=
    List.pairwise_map.mp hkeys
  refine List.Pairwise.imp_of_mem ?_ hpair
  intro b1 b2 h1 h2 hne x hx1 hx2
  rcases bucket_char nodes lvl b1 h1 with ⟨e1, _⟩
  rcases bucket_char nodes lvl b2 h2 with ⟨e2, _⟩
  rw [e1] at hx1
  rw [e2] at hx2
  exact hne ((specLevelIds_level nodes lvl b1.1 x hx1).symm.trans
    (specLevelIds_level nodes lvl b2.1 x hx2))

theorem sortedBuckets_disjoint (nodes : List RFNode) (lvl : AMap String Nat) :
    (jsSort (fun a b : Nat × List String => a.1 < b.1) (bucketsOf nodes lvl)).Pairwise
      (fun b1 b2 => ∀ x, x ∈ b1.2 → x ∉ b2.2) := by
  exact ((jsSort_perm _ _).pairwise_iff
    (fun h x hx1 hx2 => h x hx2 hx1)).mpr (bucketsOf_disjoint nodes lvl)

theorem sortedBuckets_rows_nodup (nodes : List RFNode) (lvl : AMap String Nat)
    (hnd : (nodes.map (fun n => n.id)).Nodup) :
    ∀ b ∈ jsSort (fun a b : Nat × List String => a.1 < b.1) (bucketsOf nodes lvl),
      b.2.Nodup := by
  intro b hb
  have hbB := (jsSort_perm _ _).mem_iff.mp hb
  rw [(bucket_char nodes lvl b hbB).1]
  exact specLevelIds_nodup nodes lvl b.1 hnd

theorem inDeg_fold (es : List RFEdge) (id : String) :
    ∀ m : AMap String Nat,
    (mapGet (es.foldl (fun m e =>
        mapSet m e.target ((mapGet m e.target).getD 0 + 1)) m) id).getD 0
      = (mapGet m id).getD 0 + (es.filter (fun e => e.target = id)).length := by
  induction es with
  | nil => intro m; simp
  | cons e es ih =>
    intro m
    simp only [List.foldl_cons]
    rw [ih]
    by_cases he : e.target = id
    · rw [List.filter_cons, if_pos (by simp [he])]
      rw [mapGet_set, if_pos he.symm]
      simp only [Option.getD_some, List.length_cons]
      rw [he]
      omega
    · rw [List.filter_cons, if_neg (by simp [he])]
      rw [mapGet_set, if_neg (fun h => he h.symm)]

theorem initZero_get (ns : List RFNode) (id : String) :
    ∀ m : AMap String Nat, (mapGet m id).getD 0 = 0 →
    (mapGet (ns.foldl (fun m n => mapSet m n.id 0) m) id).getD 0 = 0 := by
  induction ns with
  | nil => intro m h; exact h
  | cons n ns ih =>
    intro m h
    simp only [List.foldl_cons]
    refine ih _ ?_
    rw [mapGet_set]
    by_cases hn : id = n.id
    · rw [if_pos hn]
      rfl
    · rw [if_neg hn]
      exact h

theorem inDeg_count (nodes : List RFNode) (edges : List RFEdge) (id : String) :
    (mapGet (buildInDeg nodes edges) id).getD 0
      = (edges.filter (fun e => e.target = id)).length := by
  unfold buildInDeg
  simp only []
  rw [inDeg_fold]
  rw [initZero_get nodes id [] rfl]
  omega

theorem out_fold_some (es : List RFEdge) :
    ∀ m : AMap String (List String), (∀ e ∈ es, mapHas m e.source = true) →
    ∃ out, es.foldlM (fun m e =>
        match mapGet m e.source with
        | none => none
        | some l => some (mapSet m e.source (l ++ [e.target]))) m = some out := by
  induction es with
  | nil => intro m _; exact ⟨m, rfl⟩
  | cons e es ih =>
    intro m hm
    have h1 : mapHas m e.source = true := hm e (List.mem_cons_self _ _)
    rw [mapHas] at h1
    cases hg : mapGet m e.source with
    | none =>
      rw [hg] at h1
      simp at h1
    | some l =>
      rcases ih (mapSet m e.source (l ++ [e.target])) (fun e2 he2 => by
          rw [mapHas_set]
          simp [hm e2 (List.mem_cons_of_mem _ he2)]) with ⟨out, hout⟩
      refine ⟨out, ?_⟩
      rw [List.foldlM_cons]
      rw [show (match mapGet m e.source with
          | none => none
          | some l => some (mapSet m e.source (l ++ [e.target])))
          = some (mapSet m e.source (l ++ [e.target])) by rw [hg]]
      exact hout

theorem init_out_has (ns : List RFNode) (k : String) :
    ∀ m : AMap String (List String), (k ∈ ns.map (fun n => n.id) ∨ mapHas m k = true) →
    mapHas (ns.foldl (fun m n => mapSet m n.id []) m) k = true := by
  induction ns with
  | nil =>
    intro m h
    rcases h with h | h
    · simp at h
    · exact h
  | cons n ns ih =>
    intro m h
    simp only [List.foldl_cons]
    refine ih _ ?_
    rcases h with h | h
    · rw [List.map_cons] at h
      rcases List.mem_cons.mp h with h2 | h2
      · exact Or.inr (by rw [mapHas_set]; simp [h2])
      · exact Or.inl h2
    · exact Or.inr (by rw [mapHas_set]; simp [h])

theorem buildOut_some (nodes : List RFNode) (edges : List RFEdge)
    (hsrc : ∀ e ∈ edges, e.source ∈ nodes.map (fun n => n.id)) :
    ∃ out, buildOut nodes edges = some out := by
  unfold buildOut
  simp only []
  refine out_fold_some edges _ ?_
  intro e he
  exact init_out_has nodes e.source [] (Or.inl (hsrc e he))

/-- The claim's root set, read off the claim's words: `[opts.startId]` when
given, else the first greeting node's id when one exists, else all nodes of
in-degree zero (counting incoming edges over the edge list), else the first
node. -/
def specRoots (nodes : List RFNode) (edges : List RFEdge) (opts : LayoutOpts) :
    List String :=
  match opts.startId with
  | some s => [s]
  | none =>
    match nodes.find? (fun n => n.data.type = NodeType.greeting) with
    | some n => [n.id]
    | none =>
      let zs := (nodes.filter (fun n =>
          (edges.filter (fun e => e.target = n.id)).length = 0)).map (fun n => n.id)
      if zs.isEmpty then (nodes.map (fun n => n.id)).take 1 else zs

theorem rootsOf_spec (nodes : List RFNode) (edges : List RFEdge) (opts : LayoutOpts)
    (hne : nodes ≠ [])
    (hids : ∀ n ∈ nodes, n.id ≠ "")
    (hstart : ∀ s, opts.startId = some s → s ≠ "") :
    rootsOf nodes edges opts = some (specRoots nodes edges opts) := by
  obtain ⟨n0, rest, rfl⟩ : ∃ n0 rest, nodes = n0 :: rest := by
    cases nodes with
    | nil => exact absurd rfl hne
    | cons a b => exact ⟨a, b, rfl⟩
  unfold rootsOf specRoots
  simp only []
  cases hs : opts.startId with
  | some s =>
    have hst : jstruthy (some s) = true := by
      rw [show jstruthy (some s) = decide (s ≠ "") from rfl]
      exact decide_eq_true (hstart s hs)
    simp [hst]
  | none =>
    rw [show jstruthy none = false from rfl]
    cases hg : (n0 :: rest).find? (fun n => n.data.type = NodeType.greeting) with
    | some n =>
      have hmemn : n ∈ n0 :: rest := List.mem_of_find?_eq_some hg
      have hnid : n.id ≠ "" := hids n hmemn
      have hgt : jstruthy ((some n).map (fun n => n.id)) = true := by
        rw [show jstruthy ((some n).map (fun n => n.id)) = decide (n.id ≠ "") from rfl]
        exact decide_eq_true hnid
      rw [hgt]
      simp
    | none =>
      rw [show jstruthy ((none : Option RFNode).map (fun n => n.id)) = false from rfl]
      have hfil : (n0 :: rest).filter (fun n =>
            (mapGet (buildInDeg (n0 :: rest) edges) n.id).getD 0 = 0)
          = (n0 :: rest).filter (fun n =>
            (edges.filter (fun e => e.target = n.id)).length = 0) := by
        refine List.filter_congr ?_
        intro n _
        exact decide_eq_decide.mpr (by rw [inDeg_count])
      rw [hfil]
      rw [if_neg (show ¬ ((false : Bool) = true) by simp)]
      rw [if_neg (show ¬ ((false : Bool) = true) by simp)]
      by_cases hz : (((n0 :: rest).filter (fun n =>
          (edges.filter (fun e => e.target = n.id)).length = 0)).map
            (fun n => n.id)).isEmpty = true
      · rw [if_pos hz, if_pos hz]
        rfl
      · rw [if_neg hz, if_neg hz]

end Editor

/-- **C5** (corrected). Under the hypotheses that the node list is non-empty
with distinct, non-empty ids, that every edge source is a known node id, and
that `opts.startId` is absent or non-empty — the correction: the code tests
`opts.startId` for JS truthiness, so an empty-string `startId` is *ignored*
rather than used as the root — `layoutByLevels` performs the claimed
breadth-first levelling: the root set is the claim's (in-degree counted over
the edge list, first node as final fallback), every root is levelled `0`,
every levelled node is a root or was discovered one level below an
adjacency-list predecessor, undiscovered nodes default to level `0`, each
level's id row is sorted, and every node is positioned by the claimed
formula — `x` centred on `0` in `xGap` (default `320`) steps along the sorted
row of its level, `y` the level times `yGap` (default `180`). -/
theorem C5_layout (nodes : List Editor.RFNode) (edges : List Editor.RFEdge)
    (opts : Editor.LayoutOpts)
    (hnd : (nodes.map (fun n => n.id)).Nodup)
    (hne : nodes ≠ [])
    (hsrc : ∀ e ∈ edges, e.source ∈ nodes.map (fun n => n.id))
    (hids : ∀ n ∈ nodes, n.id ≠ "")
    (hstart : ∀ s, opts.startId = some s → s ≠ "") :
    ∃ out, Editor.buildOut nodes edges = some out ∧
      Editor.rootsOf nodes edges opts = some (Editor.specRoots nodes edges opts) ∧
      (∀ r ∈ Editor.specRoots nodes edges opts,
        mapGet (Editor.levelMapOf out (Editor.specRoots nodes edges opts)) r = some 0) ∧
      Editor.bfsInv out (Editor.specRoots nodes edges opts)
        (Editor.levelMapOf out (Editor.specRoots nodes edges opts)) ∧
      (∀ id, mapGet (Editor.levelMapOf out (Editor.specRoots nodes edges opts)) id = none →
        Editor.levelOf (Editor.levelMapOf out (Editor.specRoots nodes edges opts)) id = 0) ∧
      (∀ L, (jsSort (fun a b : String => a < b)
          (Editor.specLevelIds nodes
            (Editor.levelMapOf out (Editor.specRoots nodes edges opts)) L)).Pairwise
              (fun a b => a ≤ b)) ∧
      Editor.layoutByLevels nodes edges opts
        = some (nodes.map (fun n =>
            { n with position :=
                (Editor.specPos (opts.xGap.getD 320) (opts.yGap.getD 180) nodes
                  (Editor.levelMapOf out (Editor.specRoots nodes edges opts)) n.id) })) := by
  obtain ⟨out, hout⟩ := Editor.buildOut_some nodes edges hsrc
  have hroots := Editor.rootsOf_spec nodes edges opts hne hids hstart
  refine ⟨out, hout, hroots,
    (fun r hr => Editor.levelMapOf_root out _ r hr),
    Editor.levelMapOf_inv out _,
    (fun id h => by simp [Editor.levelOf, h]),
    (fun L => Editor.jsSortStr_sorted _), ?_⟩
  have hLL : Editor.layoutByLevels nodes edges opts
      = some ((jsSort (fun a b : Nat × List String => a.1 < b.1)
          (Editor.bucketsOf nodes
            (Editor.levelMapOf out (Editor.specRoots nodes edges opts)))).foldl
        (Editor.placeBucket (opts.xGap.getD 320) (opts.yGap.getD 180)) nodes) := by
    unfold Editor.layoutByLevels
    simp only []
    rw [hout, hroots]
  rw [hLL]
  rw [Editor.fold_placeBucket (opts.xGap.getD 320) (opts.yGap.getD 180) _ nodes hnd
    (Editor.sortedBuckets_rows_nodup nodes _ hnd)
    (Editor.sortedBuckets_disjoint nodes _)]
  exact congrArg some (List.map_congr_left
    (fun n hn => Editor.updBuckets_spec _ _ nodes _ n hn))

/-- **C5 counterexample**: with `opts.startId = ""` — a *given* start id in the
claim's reading — the claim's root set is `[""]`, but the code's truthiness
test skips the empty string and falls through to the in-degree-zero roots,
yielding `["a"]`. -/
theorem C5_counterexample :
    Editor.rootsOf [⟨"a", (0, 0), ⟨"A", Editor.NodeType.snippet, []⟩⟩] []
        ⟨none, none, some ""⟩ = some ["a"]
    ∧ Editor.specRoots [⟨"a", (0, 0), ⟨"A", Editor.NodeType.snippet, []⟩⟩] []
        ⟨none, none, some ""⟩ = [""] := ⟨rfl, rfl⟩

/-- **C5 witness**: the layout theorem instantiated on a concrete one-node
greeting graph with default options. -/
theorem C5_witness :
    ∃ out, Editor.buildOut [⟨"a", (0, 0), ⟨"A", Editor.NodeType.greeting, []⟩⟩] []
        = some out ∧
      Editor.rootsOf [⟨"a", (0, 0), ⟨"A", Editor.NodeType.greeting, []⟩⟩] []
          ⟨none, none, none⟩
        = some (Editor.specRoots [⟨"a", (0, 0), ⟨"A", Editor.NodeType.greeting, []⟩⟩] []
            ⟨none, none, none⟩) ∧
      (∀ r ∈ Editor.specRoots [⟨"a", (0, 0), ⟨"A", Editor.NodeType.greeting, []⟩⟩] []
          ⟨none, none, none⟩,
        mapGet (Editor.levelMapOf out
          (Editor.specRoots [⟨"a", (0, 0), ⟨"A", Editor.NodeType.greeting, []⟩⟩] []
            ⟨none, none, none⟩)) r = some 0) ∧
      Editor.bfsInv out
        (Editor.specRoots [⟨"a", (0, 0), ⟨"A", Editor.NodeType.greeting, []⟩⟩] []
          ⟨none, none, none⟩)
        (Editor.levelMapOf out
          (Editor.specRoots [⟨"a", (0, 0), ⟨"A", Editor.NodeType.greeting, []⟩⟩] []
            ⟨none, none, none⟩)) ∧
      (∀ id, mapGet (Editor.levelMapOf out
          (Editor.specRoots [⟨"a", (0, 0), ⟨"A", Editor.NodeType.greeting, []⟩⟩] []
            ⟨none, none, none⟩)) id = none →
        Editor.levelOf (Editor.levelMapOf out
          (Editor.specRoots [⟨"a", (0, 0), ⟨"A", Editor.NodeType.greeting, []⟩⟩] []
            ⟨none, none, none⟩)) id = 0) ∧
      (∀ L, (jsSort (fun a b : String => a < b)
          (Editor.specLevelIds [⟨"a", (0, 0), ⟨"A", Editor.NodeType.greeting, []⟩⟩]
            (Editor.levelMapOf out
              (Editor.specRoots [⟨"a", (0, 0), ⟨"A", Editor.NodeType.greeting, []⟩⟩] []
                ⟨none, none, none⟩)) L)).Pairwise (fun a b => a ≤ b)) ∧
      Editor.layoutByLevels [⟨"a", (0, 0), ⟨"A", Editor.NodeType.greeting, []⟩⟩] []
          ⟨none, none, none⟩
        = some (([⟨"a", (0, 0), ⟨"A", Editor.NodeType.greeting, []⟩⟩]
            : List Editor.RFNode).map (fun n =>
            { n with position :=
                (Editor.specPos ((none : Option ℚ).getD 320) ((none : Option ℚ).getD 180)
                  [⟨"a", (0, 0), ⟨"A", Editor.NodeType.greeting, []⟩⟩]
                  (Editor.levelMapOf out
                    (Editor.specRoots [⟨"a", (0, 0), ⟨"A", Editor.NodeType.greeting, []⟩⟩]
                      [] ⟨none, none, none⟩)) n.id) })) :=
  C5_layout [⟨"a", (0, 0), ⟨"A", Editor.NodeType.greeting, []⟩⟩] [] ⟨none, none, none⟩
    (by decide) (by decide) (by decide) (by decide)
    (fun s h => Option.noConfusion h)
